import Mathlib

/-!
# Verification of the Reflectable serialization core

Shallow embedding of the reflection/dispatch/codec engine of the
`reflectable` C++ library:

* the generic tree value (`Json`, mirroring the external nlohmann value
  abstraction restricted to the forms the core manipulates: null, bool,
  integer scalar, string, array, object),
* the per-field-category codecs `save_impl` / `load_impl` of
  `JsonSerializer` (arithmetic, enum, string-convertible, optional,
  variant, sequences, maps, pairs/tuples, time points, durations),
* the incremental name dispatcher `member_dispatch_t`
  (`update_match` / `find_string`),
* the required-member tracker `required_members_t`,
* the object-tree load orchestrator `load_json_impl` together with the
  per-member retry wrapper `option_value_handler::handle`,
* the integral scalar string parser `StringLoaders::load_impl`.

Conventions.  A C++ `load_impl(const json&, T&)` call mutates its member
and returns `bool`, and the nlohmann accessors it relies on may throw.
It is embedded as a function `Json → T → T × Status` returning the final
member value and one of three outcomes: `Status.ok` (returned `true`),
`Status.failed` (returned `false`), `Status.thrown` (an exception left the
call; nothing in the library catches, so `thrown` propagates through every
embedded caller).  Machine integers are embedded as `Int` with the 64-bit
conversions written out explicitly (`wrapI64`, `% 2^64`); C++ integer
division (truncation toward zero, as performed by `duration_cast`) is
`Int.tdiv`.  Byte strings (C strings, JSON keys) are `List Nat` of their
byte values, with the implicit terminator 0 read through `strByte`.
-/

/-- Outcome of an embedded fallible C++ call: returned `true`, returned
`false`, or let an exception escape. -/
inductive Status where
  | ok : Status
  | failed : Status
  | thrown : Status
deriving Repr, DecidableEq

/-- The generic tree value (nlohmann json restricted to the forms the core
uses; numeric scalars are integers — floating point is outside the
embedding).  Object keys are byte strings.  A scalar integer `num n`
stands for a parsed JSON number, for which nlohmann's
`is_number_unsigned` holds exactly when the value is non-negative. -/
inductive Json where
  | null : Json
  | boolean : Bool → Json
  | num : Int → Json
  | str : String → Json
  | arr : List Json → Json
  | obj : List (List Nat × Json) → Json

/-- `is_number_unsigned` of the tree value abstraction: a non-negative
integer scalar (nlohmann stores parsed non-negative integers with the
unsigned number type). -/
def is_number_unsigned : Json → Bool
  | Json.num n => decide (0 ≤ n)
  | _ => false

/-- `get<size_t>()` on an unsigned integer scalar. -/
def jsonGetNat : Json → Nat
  | Json.num n => n.toNat
  | _ => 0

/-- Range of a 64-bit signed integer. -/
def in64 (n : Int) : Prop := -(2 ^ 63) ≤ n ∧ n < 2 ^ 63

instance (n : Int) : Decidable (in64 n) := by unfold in64; infer_instance

/-- Reinterpretation of an arbitrary integer as a 64-bit signed value
(the effect of `static_cast` through a 64-bit representation). -/
def wrapI64 (n : Int) : Int := (n + 2 ^ 63) % 2 ^ 64 - 2 ^ 63

/-- C++ integer division: truncation toward zero (what `duration_cast`
performs on integral representations). -/
def cppQuot (a : Int) (b : Int) : Int := a.tdiv b

/-- `save_impl` for arithmetic (64-bit integer) members: `j = member`. -/
def saveI64 (n : Int) : Json := Json.num n

/-- `load_impl` for arithmetic (64-bit integer) members:
`member = j.get<T>()` — conversion succeeds only on a numeric scalar
(otherwise nlohmann throws `type_error`, which nothing catches), and a
stored value is cast into the 64-bit representation. -/
def loadI64 (j : Json) (member : Int) : Int × Status :=
  match j with
  | Json.num n => (wrapI64 n, Status.ok)
  | _ => (member, Status.thrown)

/-- `load_impl` reading a `uint64_t` (the time-point decoder's counter):
`j.get<uint64_t>()` reduces the stored value modulo `2^64`. -/
def loadU64 (j : Json) (member : Int) : Int × Status :=
  match j with
  | Json.num n => (n % 2 ^ 64, Status.ok)
  | _ => (member, Status.thrown)

/-- `save_impl` for `bool` members. -/
def saveBool (b : Bool) : Json := Json.boolean b

/-- `load_impl` for `bool` members: `j.get<bool>()` requires a boolean
scalar. -/
def loadBool (j : Json) (member : Bool) : Bool × Status :=
  match j with
  | Json.boolean b => (b, Status.ok)
  | _ => (member, Status.thrown)

/-- `save_impl` for enum members: cast to the underlying (64-bit) integer
type and save that. -/
def saveEnum (e : Int) : Json := saveI64 e

/-- `load_impl` for enum members: load the underlying integer, then cast
into the enum. -/
def loadEnum (j : Json) (member : Int) : Int × Status :=
  match loadI64 j 0 with
  | (v, Status.ok) => (v, Status.ok)
  | (_, s) => (member, s)

/-- `save_impl` for string-convertible members:
`j = static_cast<std::string>(member)`. -/
def saveStr (s : String) : Json := Json.str s

/-- `load_impl` for string-convertible members:
`member = static_cast<T>(j.get<std::string>())` — throws unless the value
is a string scalar. -/
def loadStr (j : Json) (member : String) : String × Status :=
  match j with
  | Json.str s => (s, Status.ok)
  | _ => (member, Status.thrown)

/-- `save_impl` for `std::optional<T>`: the inner encoding when engaged,
`null` otherwise. -/
def saveOpt (enc : α → Json) (member : Option α) : Json :=
  match member with
  | some v => enc v
  | none => Json.null

/-- `load_impl` for `std::optional<T>`: `null` resets the member; anything
else is decoded into a fresh default-constructed `T val` and stored on
success.  `d` is the default-constructed inner value. -/
def loadOpt (dec : Json → α → α × Status) (d : α) (j : Json)
    (member : Option α) : Option α × Status :=
  match j with
  | Json.null => (none, Status.ok)
  | _ =>
    let (v, st) := dec j d
    match st with
    | Status.ok => (some v, Status.ok)
    | s => (member, s)

/-- `save_impl` for `std::pair<T1, T2>`. -/
def savePair (encA : α → Json) (encB : β → Json) (member : α × β) : Json :=
  Json.arr [encA member.1, encB member.2]

/-- `load_impl` for `std::pair<T1, T2>`: requires a 2-element array; loads
`member.first` then (short-circuit) `member.second` in place. -/
def load_pair (decA : Json → α → α × Status) (decB : Json → β → β × Status)
    (j : Json) (member : α × β) : (α × β) × Status :=
  match j with
  | Json.arr js =>
    if js.length = 2 then
      let (a, s1) := decA (js.getD 0 Json.null) member.1
      match s1 with
      | Status.ok =>
        let (b, s2) := decB (js.getD 1 Json.null) member.2
        ((a, b), s2)
      | s => ((a, member.2), s)
    else (member, Status.failed)
  | _ => (member, Status.failed)

/-- `save_impl` for `std::tuple<T0, T1, T2>` (a three-element
instantiation): fixed-size array of the positionally encoded elements. -/
def saveTuple3 (encA : α → Json) (encB : β → Json) (encC : γ → Json)
    (member : α × β × γ) : Json :=
  Json.arr [encA member.1, encB member.2.1, encC member.2.2]

/-- `load_impl` for `std::tuple<T0, T1, T2>`: rejects anything but an
array of exactly the tuple's arity, then loads each element in place,
skipping the rest of the walk once `result` is false. -/
def loadTuple3 (decA : Json → α → α × Status) (decB : Json → β → β × Status)
    (decC : Json → γ → γ × Status) (j : Json)
    (member : α × β × γ) : (α × β × γ) × Status :=
  match j with
  | Json.arr js =>
    if js.length = 3 then
      let (a, s1) := decA (js.getD 0 Json.null) member.1
      match s1 with
      | Status.ok =>
        let (b, s2) := decB (js.getD 1 Json.null) member.2.1
        match s2 with
        | Status.ok =>
          let (c, s3) := decC (js.getD 2 Json.null) member.2.2
          ((a, b, c), s3)
        | s => ((a, b, member.2.2), s)
      | s => ((a, member.2.1, member.2.2), s)
    else (member, Status.failed)
  | _ => (member, Status.failed)

/-- `save_impl` for STL sequences: array of the encodings of the elements
in iteration order. -/
def saveSeq (enc : α → Json) (member : List α) : Json :=
  Json.arr (member.map enc)

/-- `std::vector::resize(n)`: keep the first `n` elements, append
value-initialized elements (`d`) as needed. -/
def resizeList (member : List α) (n : Nat) (d : α) : List α :=
  member.take n ++ List.replicate (n - member.length) d

/-- The element walk shared by the `std::array` / `std::vector` branch of
the sequence `load_impl`: `load_impl(j[i], member[i])` for each index.
The guard around the early return is `!load_impl(...) && false`, so a
`false` element result never aborts the walk — only an escaping
exception does. -/
def load_vec_loop (dec : Json → α → α × Status) (d : α) :
    List Json → List α → Nat → List α × Status
  | [], member, _ => (member, Status.ok)
  | j :: rest, member, i =>
    let (v, st) := dec j (member.getD i d)
    let member' := member.set i v
    match st with
    | Status.thrown => (member', Status.thrown)
    | _ => load_vec_loop dec d rest member' (i + 1)

/-- `load_impl` for `std::vector<T>`: requires an array, resizes the
member to the input length, then decodes every element in place. -/
def load_vector (dec : Json → α → α × Status) (d : α) (j : Json)
    (member : List α) : List α × Status :=
  match j with
  | Json.arr js => load_vec_loop dec d js (resizeList member js.length d) 0
  | _ => (member, Status.failed)

/-- `load_impl` for `std::array<T, n>`: requires an array of exactly the
member's size, then decodes every element in place. -/
def load_stdarray (dec : Json → α → α × Status) (d : α) (j : Json)
    (member : List α) : List α × Status :=
  match j with
  | Json.arr js =>
    if js.length = member.length then load_vec_loop dec d js member 0
    else (member, Status.failed)
  | _ => (member, Status.failed)

/-- Ordered insertion into a `std::set<int64_t>` (no duplicate keys). -/
def setInsert (x : Int) : List Int → List Int
  | [] => [x]
  | y :: ys =>
    if x < y then x :: y :: ys
    else if x = y then y :: ys
    else y :: setInsert x ys

/-- The element walk of the `std::set` branch of the sequence
`load_impl`: decode each element into a fresh `value_type val` (`d` is
its default-initialized value) and insert it; as in the vector walk, a
`false` element result is swallowed by the `&& false` guard and the
(possibly unmodified) `val` is inserted anyway. -/
def load_set_loop (dec : Json → Int → Int × Status) (d : Int) :
    List Json → List Int → List Int × Status
  | [], acc => (acc, Status.ok)
  | j :: rest, acc =>
    let (v, st) := dec j d
    match st with
    | Status.thrown => (acc, Status.thrown)
    | _ => load_set_loop dec d rest (setInsert v acc)

/-- `load_impl` for `std::set<int64_t>`: requires an array, clears the
member, then decodes and inserts every element. -/
def load_set (dec : Json → Int → Int × Status) (d : Int) (j : Json)
    (member : List Int) : List Int × Status :=
  match j with
  | Json.arr js => load_set_loop dec d js []
  | _ => (member, Status.failed)

/-- `save_impl` for STL maps: an array of 2-element `[key, value]`
arrays, in iteration order. -/
def saveMap (encK : Int → Json) (encV : α → Json)
    (member : List (Int × α)) : Json :=
  Json.arr (member.map fun kv => Json.arr [encK kv.1, encV kv.2])

/-- `std::map::emplace`: ordered insertion that leaves an existing
binding for the key untouched. -/
def mapEmplace (k : Int) (v : α) : List (Int × α) → List (Int × α)
  | [] => [(k, v)]
  | (k', v') :: rest =>
    if k < k' then (k, v) :: (k', v') :: rest
    else if k = k' then (k', v') :: rest
    else (k', v') :: mapEmplace k v rest

/-- The entry walk of the map `load_impl`: each entry must be a 2-element
array; key and value are decoded into fresh defaults and emplaced.  Here
failures do propagate immediately. -/
def load_map_loop (decK : Json → Int → Int × Status)
    (decV : Json → α → α × Status) (dK : Int) (dV : α) :
    List Json → List (Int × α) → List (Int × α) × Status
  | [], acc => (acc, Status.ok)
  | jj :: rest, acc =>
    match jj with
    | Json.arr kv =>
      if kv.length = 2 then
        let (k, sK) := decK (kv.getD 0 Json.null) dK
        match sK with
        | Status.ok =>
          let (v, sV) := decV (kv.getD 1 Json.null) dV
          match sV with
          | Status.ok => load_map_loop decK decV dK dV rest (mapEmplace k v acc)
          | s => (acc, s)
        | s => (acc, s)
      else (acc, Status.failed)
    | _ => (acc, Status.failed)

/-- `load_impl` for `std::map<int64_t, T>`: requires an array, clears the
member, then decodes and emplaces every `[key, value]` entry. -/
def load_map (decK : Json → Int → Int × Status)
    (decV : Json → α → α × Status) (dK : Int) (dV : α) (j : Json)
    (member : List (Int × α)) : List (Int × α) × Status :=
  match j with
  | Json.arr js => load_map_loop decK decV dK dV js []
  | _ => (member, Status.failed)

/-- `save_impl` for `std::variant<T...>`: `j = json(2, member.index())`
builds the 2-element array `[index, index]`, whose second slot is then
overwritten by the encoding of the active alternative (via
`std::visit`).  `encs` lists the per-alternative encoders; the held
value is `member = (index, value)`. -/
def save_variant (encs : List (α → Json)) (member : Nat × α) : Json :=
  let base := List.replicate 2 (Json.num (member.1 : Int))
  match encs.get? member.1 with
  | some enc => Json.arr (base.set 1 (enc member.2))
  | none => Json.arr base

/-- The alternative walk of the variant `load_impl`
(`for_each_in_tuple` over a default-constructed tuple): at the position
equal to the decoded index, decode `j[1]` into that alternative's
default (`alts` pairs each alternative's decoder with its
default-constructed value) and assign the member; `result` stays `false`
when no position matches. -/
def variant_loop (j1 : Json) (index : Nat) :
    List ((Json → α → α × Status) × α) → Nat → (Nat × α) → Status →
    (Nat × α) × Status
  | [], _, member, result => (member, result)
  | (dec, d) :: rest, i, member, result =>
    if i = index then
      let (v, st) := dec j1 d
      match st with
      | Status.thrown => (member, Status.thrown)
      | s => variant_loop j1 index rest (i + 1) (i, v) s
    else variant_loop j1 index rest (i + 1) member result

/-- `load_impl` for `std::variant<T...>`: rejects anything but a
2-element array whose first element is an unsigned number; then walks the
alternatives as in `variant_loop`. -/
def load_variant (alts : List ((Json → α → α × Status) × α)) (j : Json)
    (member : Nat × α) : (Nat × α) × Status :=
  match j with
  | Json.arr js =>
    if js.length = 2 && is_number_unsigned (js.getD 0 Json.null) then
      variant_loop (js.getD 1 Json.null) (jsonGetNat (js.getD 0 Json.null))
        alts 0 member Status.failed
    else (member, Status.failed)
  | _ => (member, Status.failed)

/-- `save_impl` for `std::chrono::time_point` (system-clock resolution,
i.e. a nanosecond count `t`): the microsecond count since the epoch,
`duration_cast<microseconds>(member - epoch).count()` — C++ integral
`duration_cast` truncates toward zero. -/
def saveTime (t : Int) : Json := saveI64 (cppQuot t 1000)

/-- `load_impl` for `std::chrono::time_point`: reads the count as
`uint64_t`, then `epoch + microseconds{us}` converts it through the
64-bit signed microsecond representation and scales to the member's
nanosecond representation (64-bit arithmetic throughout). -/
def loadTime (j : Json) (member : Int) : Int × Status :=
  match loadU64 j 0 with
  | (us, Status.ok) => (wrapI64 (1000 * wrapI64 us), Status.ok)
  | (_, s) => (member, s)

/-- `save_impl` for `std::chrono::duration` (nanosecond representation):
`duration_cast<microseconds>(member).count()`. -/
def saveDur (d : Int) : Json := saveI64 (cppQuot d 1000)

/-- `load_impl` for `std::chrono::duration` (nanosecond representation):
reads the count as `int64_t` and scales back via `duration_cast`. -/
def loadDur (j : Json) (member : Int) : Int × Status :=
  match j with
  | Json.num n => (wrapI64 (1000 * wrapI64 n), Status.ok)
  | _ => (member, Status.thrown)

/-! ## The name dispatcher (`member_dispatch_t`) -/

/-- Byte of a C string at a position: the stored byte below the length,
the implicit terminator `0` from the length on.  Member names and input
keys are byte strings without interior `0` bytes. -/
def strByte (s : List Nat) (i : Nat) : Nat := s.getD i 0

/-- Dash-to-underscore normalization applied to every matched character
(`c = (c == '-') ? '_' : c`). -/
def normChar (c : Nat) : Nat := if c = 45 then 95 else c

/-- A whole input string after per-character normalization. -/
def normalizeStr (s : List Nat) : List Nat := s.map normChar

/-- The C-string "strictly less" comparison used to sort the dispatch
table (`get_long_name_index` counts names for which it holds): walk both
strings until the first differing byte, the terminator counting as byte
`0`. -/
def strLtB : List Nat → List Nat → Bool
  | [], [] => false
  | [], _ :: _ => true
  | _ :: _, [] => false
  | a :: as, b :: bs => decide (a < b) || (decide (a = b) && strLtB as bs)

/-- Non-strict C-string order; the dispatch table is sorted by it. -/
def strLe (a b : List Nat) : Bool := strLtB a b || decide (a = b)

/-- The matcher state of `member_dispatch_t`: the candidate range
`[lo, hi)` into the sorted table, the position of the character being
matched, and the match flag. -/
structure MatchState where
  lo : Nat
  hi : Nat
  name_pos : Nat
  has_match : Bool
deriving Repr, DecidableEq

/-- The slice of the table covered by the candidate range. -/
def sliceOf (names : List (List Nat)) (lo hi : Nat) : List (List Nat) :=
  (names.drop lo).take (hi - lo)

/-- `update_match(c)`: normalize the character, then narrow the candidate
range with `std::equal_range` under the position-`name_pos` byte
comparator (on the sorted table the bounds it returns are determined by
the counts of strictly smaller and of equal bytes in the current range);
`has_match` is set only when the terminator narrowed the range to a
single entry. -/
def update_match (names : List (List Nat)) (st : MatchState) (c0 : Nat) :
    MatchState :=
  let c := normChar c0
  let slice := sliceOf names st.lo st.hi
  let ltCount := (slice.filter fun nm => decide (strByte nm st.name_pos < c)).length
  let eqCount := (slice.filter fun nm => decide (strByte nm st.name_pos = c)).length
  ⟨st.lo + ltCount, st.lo + ltCount + eqCount, st.name_pos + 1,
    decide (c = 0) && decide (eqCount = 1)⟩

/-- `reset()`: full candidate range, position zero, no match. -/
def resetState (names : List (List Nat)) : MatchState :=
  ⟨0, names.length, 0, false⟩

/-- `find_string(s)` up to its final state: reset, feed every character
of the input, then feed the terminating `0`. -/
def find_string_state (names : List (List Nat)) (s : List Nat) : MatchState :=
  update_match names (s.foldl (update_match names) (resetState names)) 0

/-- `find_string(s)`: whether the input resolved to a unique entry. -/
def find_string (names : List (List Nat)) (s : List Nat) : Bool :=
  (find_string_state names s).has_match

/-! ## The load orchestrator (`load_json_impl`) and required tracking -/

/-- One entry of a dispatch table built for `JsonSerializer`
(`member_entry_t`): the member's name, ordinal and required flag, plus
the member's raw codec `load_impl` (γ is the member value type; an
instance of the reflected type is its ordinal-indexed list of member
values).  The entry's installed handler is `option_value_handler::handle`
over this codec (see `ovHandle`). -/
structure JEntry (γ : Type) where
  name : List Nat
  ordinal : Nat
  is_required : Bool
  dec : Json → γ → γ × Status

/-- `option_value_handler<T, TMember>::handle`: run the member's
`load_impl` on `TMember::get(t)`; if it returned `false`, run it once
more on the same (by then possibly mutated) member and report that
second result. -/
def ovHandle (dec : Json → γ → γ × Status) (i : Nat) (d0 : γ)
    (t : List γ) (j : Json) : List γ × Status :=
  let (m1, r1) := dec j (t.getD i d0)
  let t1 := t.set i m1
  match r1 with
  | Status.failed =>
    let (m2, r2) := dec j (t1.getD i d0)
    (t1.set i m2, r2)
  | s => (t1, s)

/-- `required_members_t`: a seen bit per member ordinal and the count of
unique required members seen. -/
structure required_members_t where
  seen_options : List Bool
  unique_required_members_seen : Nat
deriving Repr, DecidableEq

/-- The tracker as constructed at the start of a load:
`seen_options(reflectable_count<T>(), false)`. -/
def rmInit (n : Nat) : required_members_t :=
  ⟨List.replicate n false, 0⟩

/-- The statically computed count of members carrying the
`Attr_RequiredMember` attribute (`required_option_count`), over the
type's member list given as its required flags in ordinal order. -/
def requiredCount (mems : List Bool) : Nat :=
  (mems.filter id).length

/-- `required_members_t::seen_all()`: the unique-required-seen counter
equals the static required count of the type. -/
def seen_all (r : required_members_t) (mems : List Bool) : Bool :=
  decide (r.unique_required_members_seen = requiredCount mems)

/-- `required_members_t::handle(entry, config, args...)`: run the entry's
handler (`option_value_handler::handle`, through `ovHandle`); on success,
if the entry is required and its ordinal bit is unset, set it and bump
the counter. -/
def rmHandle (r : required_members_t) (e : JEntry γ) (d0 : γ)
    (t : List γ) (j : Json) : required_members_t × List γ × Status :=
  let (t', st) := ovHandle e.dec e.ordinal d0 t j
  match st with
  | Status.ok =>
    if e.is_required && !(r.seen_options.getD e.ordinal false) then
      (⟨r.seen_options.set e.ordinal true,
        r.unique_required_members_seen + 1⟩, t', Status.ok)
    else (r, t', Status.ok)
  | s => (r, t', s)

/-- `find_string(key)` followed by `handler()`: the dispatch entry the
matcher resolved the key to (`*match.first`), if any. -/
def findEntry (table : List (JEntry γ)) (key : List Nat) : Option (JEntry γ) :=
  if (find_string_state (table.map fun e => e.name) key).has_match then
    table.get? (find_string_state (table.map fun e => e.name) key).lo
  else none

/-- The key walk of `load_json_impl`: for every key of the source object,
resolve it through the dispatcher; on a match run the tracker's `handle`
and abort on its failure; an unmatched key is skipped. -/
def loadLoop (table : List (JEntry γ)) (d0 : γ) :
    List (List Nat × Json) → required_members_t → List γ →
    required_members_t × List γ × Status
  | [], r, t => (r, t, Status.ok)
  | (k, v) :: rest, r, t =>
    match findEntry table k with
    | some e =>
      match rmHandle r e d0 t v with
      | (r', t', Status.ok) => loadLoop table d0 rest r' t'
      | (r', t', s) => (r', t', s)
    | none => loadLoop table d0 rest r t

/-- `load_json_impl`: requires the source to be an object, then walks its
keys. -/
def loadJson (table : List (JEntry γ)) (d0 : γ) (source : Json)
    (r : required_members_t) (t : List γ) :
    required_members_t × List γ × Status :=
  match source with
  | Json.obj kvs => loadLoop table d0 kvs r t
  | _ => (r, t, Status.failed)

/-! ## The string-path integral parser (`StringLoaders::load_impl`) -/

/-- A well-formed decimal numeral presented to the parser: an optional
minus sign and a digit string with value `v` (the parse consumes the
whole input, so the trailing `*end == 0` check passes). -/
structure Numeral where
  neg : Bool
  v : Nat
deriving Repr, DecidableEq

/-- The mathematical value a numeral denotes. -/
def denotes (x : Numeral) : Int :=
  if x.neg then -(x.v : Int) else (x.v : Int)

/-- `std::strtoull` on a decimal numeral: magnitudes beyond the 64-bit
unsigned range clamp to `ULLONG_MAX`; otherwise a negated input wraps
modulo `2^64`. -/
def strtoullM (x : Numeral) : Nat :=
  if 2 ^ 64 - 1 < x.v then 2 ^ 64 - 1
  else if x.neg then (2 ^ 64 - x.v) % 2 ^ 64
  else x.v

/-- `std::strtoll` on a decimal numeral: the denoted value clamped to the
64-bit signed range. -/
def strtollM (x : Numeral) : Int :=
  if denotes x < -(2 ^ 63) then -(2 ^ 63)
  else if 2 ^ 63 - 1 < denotes x then 2 ^ 63 - 1
  else denotes x

/-- `StringLoaders::load_impl` for an unsigned integral member type with
maximum `maxT`: parse with `strtoull`, reject results above `maxT`,
otherwise store the (in-range, hence exactly casted) result. -/
def stringLoadUnsigned (maxT : Nat) (x : Numeral) (member : Nat) :
    Nat × Bool :=
  let result := strtoullM x
  if maxT < result then (member, false) else (result, true)

/-- `StringLoaders::load_impl` for a signed integral member type with
range `[minT, maxT]`: parse with `strtoll`, reject results outside the
range, otherwise store the result. -/
def stringLoadSigned (minT maxT : Int) (x : Numeral) (member : Int) :
    Int × Bool :=
  let result := strtollM x
  if maxT < result then (member, false)
  else if result < minT then (member, false)
  else (result, true)

/-! ## Dispatcher correctness -/

/-- A byte string without interior `0` bytes (C strings; member names
stringified from identifiers and JSON keys fed to the matcher). -/
def ZeroFree (s : List Nat) : Prop := ∀ c ∈ s, 0 < c

instance (s : List Nat) : Decidable (ZeroFree s) := by
  unfold ZeroFree; infer_instance

/-- `nm` agrees with the processed prefix `pref` byte for byte (through
the implicit terminator). -/
def matchesPrefix (pref nm : List Nat) : Bool :=
  (List.range pref.length).all fun k => decide (strByte nm k = strByte pref k)

theorem matchesPrefix_nil (nm : List Nat) : matchesPrefix [] nm = true := by
  simp [matchesPrefix]

theorem matchesPrefix_snoc (pref nm : List Nat) (c : Nat) :
    matchesPrefix (pref ++ [c]) nm =
      (matchesPrefix pref nm && decide (strByte nm pref.length = c)) := by
  have h1 : ∀ k, k < pref.length →
      strByte (pref ++ [c]) k = strByte pref k := by
    intro k hk
    simp [strByte, List.getD, List.getElem?_append_left hk]
  have h2 : strByte (pref ++ [c]) pref.length = c := by
    simp [strByte, List.getD, List.getElem?_append_right (Nat.le_refl _)]
  rw [Bool.eq_iff_iff]
  simp only [matchesPrefix, List.all_eq_true, List.mem_range, Bool.and_eq_true,
    decide_eq_true_eq, List.length_append, List.length_singleton]
  constructor
  · intro h
    constructor
    · intro k hk
      have hx := h k (by omega)
      rw [h1 k hk] at hx
      exact hx
    · have hx := h pref.length (by omega)
      rw [h2] at hx
      exact hx
  · rintro ⟨ha, hb⟩ k hk
    rcases Nat.lt_succ_iff_lt_or_eq.mp (by omega : k < pref.length + 1) with h | h
    · rw [h1 k h]
      exact ha k h
    · subst h
      rw [h2]
      exact hb

theorem filter_matchesPrefix_snoc (names : List (List Nat))
    (pref : List Nat) (c : Nat) :
    names.filter (matchesPrefix (pref ++ [c])) =
      (names.filter (matchesPrefix pref)).filter
        (fun nm => decide (strByte nm pref.length = c)) := by
  rw [List.filter_filter]
  apply List.filter_congr
  intro nm _
  rw [matchesPrefix_snoc]
  exact Bool.and_comm _ _ ▸ rfl

theorem filter_eq_nil_of_none {p : α → Bool} {l : List α}
    (h : ∀ x ∈ l, p x = false) : l.filter p = [] :=
  List.filter_eq_nil_iff.mpr fun x hx => by simp [h x hx]

theorem filter_eq_self_of_all {p : α → Bool} {l : List α}
    (h : ∀ x ∈ l, p x = true) : l.filter p = l :=
  List.filter_eq_self.mpr h

/-- A list whose `f`-values are pairwise non-decreasing splits, in order,
into its elements below, at, and above any pivot `c` (this is what
`std::equal_range` computes on the sorted candidate range). -/
theorem sorted_partition (f : α → Nat) (c : Nat) (l : List α)
    (hs : l.Pairwise fun a b => f a ≤ f b) :
    l = l.filter (fun x => decide (f x < c)) ++
        l.filter (fun x => decide (f x = c)) ++
        l.filter (fun x => decide (c < f x)) := by
  induction l with
  | nil => rfl
  | cons x xs ih =>
    have hx : ∀ y ∈ xs, f x ≤ f y := fun y hy => (List.pairwise_cons.mp hs).1 y hy
    have hxs := (List.pairwise_cons.mp hs).2
    rcases Nat.lt_trichotomy (f x) c with h | h | h
    · have e1 : (x :: xs).filter (fun y => decide (f y < c)) =
          x :: xs.filter (fun y => decide (f y < c)) := by
        simp [List.filter, h]
      have e2 : (x :: xs).filter (fun y => decide (f y = c)) =
          xs.filter (fun y => decide (f y = c)) := by
        simp [List.filter, Nat.ne_of_lt h]
      have e3 : (x :: xs).filter (fun y => decide (c < f y)) =
          xs.filter (fun y => decide (c < f y)) := by
        simp [List.filter, Nat.lt_asymm h]
      rw [e1, e2, e3, List.cons_append, List.cons_append]
      exact congrArg (x :: ·) (ih hxs)
    · have e1 : (x :: xs).filter (fun y => decide (f y < c)) = [] := by
        refine filter_eq_nil_of_none ?_
        intro y hy
        rcases List.mem_cons.mp hy with rfl | hy
        · simp [h]
        · have := hx y hy
          simp
          omega
      have e1' : xs.filter (fun y => decide (f y < c)) = [] := by
        refine filter_eq_nil_of_none ?_
        intro y hy
        have := hx y hy
        simp
        omega
      have e2 : (x :: xs).filter (fun y => decide (f y = c)) =
          x :: xs.filter (fun y => decide (f y = c)) := by
        simp [List.filter, h]
      have e3 : (x :: xs).filter (fun y => decide (c < f y)) =
          xs.filter (fun y => decide (c < f y)) := by
        simp [List.filter, h]
      rw [e1, e2, e3, List.nil_append, List.cons_append]
      have := ih hxs
      rw [e1', List.nil_append] at this
      exact congrArg (x :: ·) this
    · have e1 : (x :: xs).filter (fun y => decide (f y < c)) = [] := by
        refine filter_eq_nil_of_none ?_
        intro y hy
        rcases List.mem_cons.mp hy with rfl | hy
        · simp; omega
        · have := hx y hy
          simp
          omega
      have e2 : (x :: xs).filter (fun y => decide (f y = c)) = [] := by
        refine filter_eq_nil_of_none ?_
        intro y hy
        rcases List.mem_cons.mp hy with rfl | hy
        · simp; omega
        · have := hx y hy
          simp
          omega
      have e3 : (x :: xs).filter (fun y => decide (c < f y)) = x :: xs := by
        refine filter_eq_self_of_all ?_
        intro y hy
        rcases List.mem_cons.mp hy with rfl | hy
        · simp; omega
        · have := hx y hy
          simp
          omega
      rw [e1, e2, e3, List.nil_append, List.nil_append]

/-- A `strLtB`-smaller C string has a first differing byte position, and
it is smaller there (zero-freeness of the larger string lets the
terminator participate as byte `0`). -/
theorem strLtB_spec {a b : List Nat} (h : strLtB a b = true)
    (hb : ZeroFree b) :
    ∃ k, (∀ j, j < k → strByte a j = strByte b j) ∧
      strByte a k < strByte b k := by
  induction a generalizing b with
  | nil =>
    match b with
    | [] => simp [strLtB] at h
    | x :: bs =>
      refine ⟨0, fun j hj => absurd hj (Nat.not_lt_zero j), ?_⟩
      have hx : 0 < x := hb x (List.mem_cons_self x bs)
      simpa [strByte] using hx
  | cons x as ih =>
    match b with
    | [] => simp [strLtB] at h
    | y :: bs =>
      have h' : x < y ∨ (x = y ∧ strLtB as bs = true) := by
        simpa [strLtB] using h
      rcases h' with hlt | ⟨hxy', hrec⟩
      · exact ⟨0, fun j hj => absurd hj (Nat.not_lt_zero j),
          by simpa [strByte] using hlt⟩
      · have hbs : ZeroFree bs := fun c hc => hb c (List.mem_cons_of_mem y hc)
        rcases ih hrec hbs with ⟨k, hagree, hk⟩
        refine ⟨k + 1, ?_, by simpa [strByte] using hk⟩
        intro j hj
        match j with
        | 0 => simpa [strByte] using hxy'
        | j + 1 =>
          have := hagree j (by omega)
          simpa [strByte] using this

/-- Along the sorted table, among entries agreeing with the processed
prefix, the byte at the current position is monotone. -/
theorem byte_mono_of_strLe {a b : List Nat} {pref : List Nat}
    (h : strLe a b = true) (hb : ZeroFree b)
    (ha' : matchesPrefix pref a = true) (hb' : matchesPrefix pref b = true) :
    strByte a pref.length ≤ strByte b pref.length := by
  rcases Bool.or_eq_true _ _ |>.mp h with hlt | heq
  · rcases strLtB_spec hlt hb with ⟨k, hagree, hk⟩
    rcases Nat.lt_trichotomy k pref.length with hkp | hkp | hkp
    · exfalso
      have h1 := List.all_eq_true.mp ha' k (List.mem_range.mpr hkp)
      have h2 := List.all_eq_true.mp hb' k (List.mem_range.mpr hkp)
      have h1' := of_decide_eq_true h1
      have h2' := of_decide_eq_true h2
      omega
    · subst hkp
      exact Nat.le_of_lt hk
    · rw [hagree pref.length hkp]
  · rw [of_decide_eq_true heq]


/-- Unfolded form of `update_match`. -/
theorem update_match_eq (names : List (List Nat)) (st : MatchState)
    (c0 : Nat) :
    update_match names st c0 =
      ⟨st.lo + ((sliceOf names st.lo st.hi).filter fun nm =>
          decide (strByte nm st.name_pos < normChar c0)).length,
        st.lo + ((sliceOf names st.lo st.hi).filter fun nm =>
          decide (strByte nm st.name_pos < normChar c0)).length +
          ((sliceOf names st.lo st.hi).filter fun nm =>
            decide (strByte nm st.name_pos = normChar c0)).length,
        st.name_pos + 1,
        decide (normChar c0 = 0) &&
          decide (((sliceOf names st.lo st.hi).filter fun nm =>
            decide (strByte nm st.name_pos = normChar c0)).length = 1)⟩ :=
  rfl

/-- Moving the candidate range to the middle block of a decomposition of
its slice. -/
theorem slice_move (names : List (List Nat)) (lo hi : Nat)
    (A B C : List (List Nat)) (hlohi : lo ≤ hi)
    (hslice : sliceOf names lo hi = A ++ B ++ C) :
    sliceOf names (lo + A.length) (lo + A.length + B.length) = B := by
  have hdrop : names.drop lo = (A ++ B ++ C) ++ names.drop hi := by
    conv_lhs => rw [← List.take_append_drop (hi - lo) (names.drop lo)]
    rw [List.drop_drop]
    have e : lo + (hi - lo) = hi := by omega
    rw [e]
    rw [show (names.drop lo).take (hi - lo) = sliceOf names lo hi from rfl,
      hslice]
  have e2 : (names.drop lo).drop A.length = names.drop (lo + A.length) :=
    List.drop_drop A.length lo names
  have h2 : names.drop (lo + A.length) = B ++ (C ++ names.drop hi) := by
    rw [← e2, hdrop]
    simp only [List.append_assoc]
    rw [List.drop_left]
  unfold sliceOf
  have h1 : lo + A.length + B.length - (lo + A.length) = B.length := by omega
  rw [h1, h2, List.take_left]

/-- The matcher invariant: the candidate range is in bounds, the position
counts the processed (normalized) characters, and the range's slice of
the table is exactly the set of names agreeing with the processed
prefix. -/
def InvSt (names : List (List Nat)) (pref : List Nat) (st : MatchState) :
    Prop :=
  st.name_pos = pref.length ∧ st.lo ≤ st.hi ∧ st.hi ≤ names.length ∧
    sliceOf names st.lo st.hi = names.filter (matchesPrefix pref)

theorem invSt_reset (names : List (List Nat)) :
    InvSt names [] (resetState names) := by
  refine ⟨rfl, Nat.zero_le _, Nat.le_refl _, ?_⟩
  rw [filter_eq_self_of_all fun nm _ => matchesPrefix_nil nm]
  simp [sliceOf, resetState]

theorem invSt_step (names : List (List Nat)) (pref : List Nat)
    (st : MatchState) (c0 : Nat)
    (hsort : names.Pairwise fun a b => strLe a b = true)
    (hzf : ∀ nm ∈ names, ZeroFree nm)
    (hinv : InvSt names pref st) :
    InvSt names (pref ++ [normChar c0]) (update_match names st c0) := by
  obtain ⟨hpos, hlohi, hhilen, hslice⟩ := hinv
  have hFsort : (names.filter (matchesPrefix pref)).Pairwise
      fun a b => strLe a b = true := hsort.filter _
  have hFzf : ∀ nm ∈ names.filter (matchesPrefix pref), ZeroFree nm :=
    fun nm hnm => hzf nm (List.mem_of_mem_filter hnm)
  have hFmono : (names.filter (matchesPrefix pref)).Pairwise fun a b =>
      strByte a pref.length ≤ strByte b pref.length := by
    refine List.Pairwise.imp_of_mem ?_ hFsort
    intro a b ha hb hab
    exact byte_mono_of_strLe hab (hFzf b hb)
      (List.of_mem_filter ha) (List.of_mem_filter hb)
  have hABC : sliceOf names st.lo st.hi =
      ((names.filter (matchesPrefix pref)).filter
        fun nm => decide (strByte nm pref.length < normChar c0)) ++
      ((names.filter (matchesPrefix pref)).filter
        fun nm => decide (strByte nm pref.length = normChar c0)) ++
      ((names.filter (matchesPrefix pref)).filter
        fun nm => decide (normChar c0 < strByte nm pref.length)) := by
    rw [hslice]
    exact sorted_partition (fun nm => strByte nm pref.length)
      (normChar c0) (names.filter (matchesPrefix pref)) hFmono
  have hmoved := slice_move names st.lo st.hi _ _ _ hlohi hABC
  have hlen : (sliceOf names st.lo st.hi).length = st.hi - st.lo := by
    unfold sliceOf
    rw [List.length_take, List.length_drop]
    omega
  have hsum : ((names.filter (matchesPrefix pref)).filter
        fun nm => decide (strByte nm pref.length < normChar c0)).length +
      ((names.filter (matchesPrefix pref)).filter
        fun nm => decide (strByte nm pref.length = normChar c0)).length ≤
      st.hi - st.lo := by
    rw [← hlen, hABC]
    simp only [List.length_append]
    omega
  rw [update_match_eq, hslice, hpos]
  unfold InvSt
  dsimp only
  refine ⟨by simp, by omega, by omega, ?_⟩
  rw [filter_matchesPrefix_snoc]
  exact hmoved

theorem invSt_fold (names : List (List Nat)) (s : List Nat)
    (hsort : names.Pairwise fun a b => strLe a b = true)
    (hzf : ∀ nm ∈ names, ZeroFree nm) :
    ∀ (pref : List Nat) (st : MatchState), InvSt names pref st →
      InvSt names (pref ++ normalizeStr s)
        (s.foldl (update_match names) st) := by
  induction s with
  | nil =>
    intro pref st h
    simpa [normalizeStr] using h
  | cons c rest ih =>
    intro pref st h
    have h1 := invSt_step names pref st c hsort hzf h
    have h2 := ih (pref ++ [normChar c]) (update_match names st c) h1
    simpa [normalizeStr, List.append_assoc] using h2

theorem find_string_state_inv (names : List (List Nat)) (s : List Nat)
    (hsort : names.Pairwise fun a b => strLe a b = true)
    (hzf : ∀ nm ∈ names, ZeroFree nm) :
    InvSt names (normalizeStr s ++ [0]) (find_string_state names s) := by
  unfold find_string_state
  have h1 := invSt_fold names s hsort hzf [] (resetState names)
    (invSt_reset names)
  rw [List.nil_append] at h1
  have h2 := invSt_step names (normalizeStr s)
    (s.foldl (update_match names) (resetState names)) 0 hsort hzf h1
  simpa [normChar] using h2

theorem strByte_of_lt {s : List Nat} {i : Nat} (h : i < s.length) :
    strByte s i = s.get ⟨i, h⟩ := by
  simp [strByte, List.getD, List.getElem?_eq_getElem h]

theorem strByte_of_ge {s : List Nat} {i : Nat} (h : s.length ≤ i) :
    strByte s i = 0 := by
  simp [strByte, List.getD, List.getElem?_eq_none h]

theorem strByte_pos {s : List Nat} {i : Nat} (hzf : ZeroFree s)
    (h : i < s.length) : 0 < strByte s i := by
  rw [strByte_of_lt h]
  exact hzf _ (s.get_mem i h)

theorem normChar_pos {c : Nat} (h : 0 < c) : 0 < normChar c := by
  unfold normChar
  split <;> omega

theorem normalizeStr_zeroFree {s : List Nat} (h : ZeroFree s) :
    ZeroFree (normalizeStr s) := by
  intro c hc
  rcases List.mem_map.mp hc with ⟨c0, hc0, rfl⟩
  exact normChar_pos (h c0 hc0)

/-- A zero-free name agrees with a zero-free prefix followed by the
terminator exactly when it equals the prefix. -/
theorem matchesPrefix_term_iff {s' nm : List Nat} (hnm : ZeroFree nm)
    (hs : ZeroFree s') :
    matchesPrefix (s' ++ [0]) nm = true ↔ nm = s' := by
  rw [matchesPrefix_snoc, Bool.and_eq_true, decide_eq_true_eq]
  constructor
  · rintro ⟨hm, hterm⟩
    have hall : ∀ k, k < s'.length → strByte nm k = strByte s' k := by
      intro k hk
      have := List.all_eq_true.mp hm k (List.mem_range.mpr hk)
      exact of_decide_eq_true this
    have hlen1 : nm.length ≤ s'.length := by
      by_contra hlt
      push_neg at hlt
      have := strByte_pos hnm hlt
      omega
    have hlen2 : s'.length ≤ nm.length := by
      by_contra hlt
      push_neg at hlt
      have h1 := hall nm.length hlt
      rw [strByte_of_ge (Nat.le_refl _)] at h1
      have h2 := strByte_pos hs hlt
      omega
    have hlen : nm.length = s'.length := Nat.le_antisymm hlen1 hlen2
    apply List.ext_get hlen
    intro k h1 h2
    have := hall k h2
    rw [strByte_of_lt h1, strByte_of_lt h2] at this
    exact this
  · rintro rfl
    refine ⟨?_, strByte_of_ge (Nat.le_refl _)⟩
    refine List.all_eq_true.mpr ?_
    intro k _
    exact decide_eq_true rfl

theorem find_string_iff_filter (names : List (List Nat)) (s : List Nat)
    (hsort : names.Pairwise fun a b => strLe a b = true)
    (hzf : ∀ nm ∈ names, ZeroFree nm) :
    find_string names s = true ↔
      (names.filter (matchesPrefix (normalizeStr s ++ [0]))).length = 1 := by
  have hinv := invSt_fold names s hsort hzf [] (resetState names)
    (invSt_reset names)
  rw [List.nil_append] at hinv
  obtain ⟨hpos, hlohi, hhilen, hslice⟩ := hinv
  unfold find_string find_string_state
  rw [update_match_eq]
  dsimp only
  rw [hslice, hpos]
  rw [show normChar 0 = 0 from rfl]
  rw [← filter_matchesPrefix_snoc]
  simp

/-- `find_string` succeeds exactly when the normalized input appears as
the name of exactly one table entry. -/
theorem find_string_iff_count (names : List (List Nat)) (s : List Nat)
    (hsort : names.Pairwise fun a b => strLe a b = true)
    (hzf : ∀ nm ∈ names, ZeroFree nm) (hs : ZeroFree s) :
    find_string names s = true ↔ names.count (normalizeStr s) = 1 := by
  rw [find_string_iff_filter names s hsort hzf]
  have heq : names.filter (matchesPrefix (normalizeStr s ++ [0])) =
      names.filter (fun nm => nm == normalizeStr s) := by
    apply List.filter_congr
    intro nm hnm
    rw [Bool.eq_iff_iff, beq_iff_eq]
    exact matchesPrefix_term_iff (hzf nm hnm) (normalizeStr_zeroFree hs)
  rw [heq, ← List.countP_eq_length_filter]
  rfl

theorem take_eq_singleton_head {xs : List α} {k : Nat} {x : α}
    (h : xs.take k = [x]) : xs.get? 0 = some x := by
  match xs, k with
  | [], _ => simp at h
  | y :: ys, 0 => simp at h
  | y :: ys, k + 1 =>
    rw [List.take_succ_cons] at h
    have : y = x := (List.cons.injEq _ _ _ _ |>.mp h).1
    simp [this]

/-- On success the matcher's final `lo` points at the unique entry whose
name is the normalized input (`*match.first`). -/
theorem find_string_lo (names : List (List Nat)) (s : List Nat)
    (hsort : names.Pairwise fun a b => strLe a b = true)
    (hzf : ∀ nm ∈ names, ZeroFree nm) (hs : ZeroFree s)
    (h : find_string names s = true) :
    names.get? (find_string_state names s).lo = some (normalizeStr s) := by
  obtain ⟨hpos, hlohi, hhilen, hslice⟩ := find_string_state_inv names s hsort hzf
  have hflen := (find_string_iff_filter names s hsort hzf).mp h
  have heq : names.filter (matchesPrefix (normalizeStr s ++ [0])) =
      names.filter (fun nm => nm == normalizeStr s) := by
    apply List.filter_congr
    intro nm hnm
    rw [Bool.eq_iff_iff, beq_iff_eq]
    exact matchesPrefix_term_iff (hzf nm hnm) (normalizeStr_zeroFree hs)
  obtain ⟨nm0, hnm0⟩ := List.length_eq_one.mp hflen
  have hnm0' : nm0 = normalizeStr s := by
    have hmem : nm0 ∈ names.filter (fun nm => nm == normalizeStr s) := by
      rw [← heq, hnm0]
      exact List.mem_singleton_self nm0
    have := List.of_mem_filter hmem
    exact beq_iff_eq.mp this
  rw [hnm0'] at hnm0
  rw [hnm0] at hslice
  unfold sliceOf at hslice
  have hhead := take_eq_singleton_head hslice
  rw [List.get?_eq_getElem?, List.getElem?_drop] at hhead
  rw [List.get?_eq_getElem?]
  simpa using hhead


/-! ## Dispatch tables and the orchestrator's key walk -/

/-- Well-formedness of a dispatch table as `get_member_dispatch` builds
it: entries sorted lexicographically by (zero-free, identifier) name. -/
def TableWF (table : List (JEntry γ)) : Prop :=
  (table.map fun e => e.name).Pairwise (fun a b => strLe a b = true) ∧
    ∀ e ∈ table, ZeroFree e.name

theorem loadLoop_cons_none {table : List (JEntry γ)} {d0 : γ}
    {k : List Nat} {v : Json} {rest : List (List Nat × Json)}
    {r : required_members_t} {t : List γ} (h : findEntry table k = none) :
    loadLoop table d0 ((k, v) :: rest) r t = loadLoop table d0 rest r t := by
  conv_lhs => rw [loadLoop]
  rw [h]

theorem loadLoop_cons_some {table : List (JEntry γ)} {d0 : γ}
    {k : List Nat} {v : Json} {rest : List (List Nat × Json)}
    {r : required_members_t} {t : List γ} {e : JEntry γ}
    (h : findEntry table k = some e) :
    loadLoop table d0 ((k, v) :: rest) r t =
      match rmHandle r e d0 t v with
      | (r', t', Status.ok) => loadLoop table d0 rest r' t'
      | (r', t', s) => (r', t', s) := by
  conv_lhs => rw [loadLoop]
  rw [h]

set_option maxHeartbeats 1000000 in
theorem findEntry_some_name {table : List (JEntry γ)} {key : List Nat}
    (wf : TableWF table) (hk : ZeroFree key) {e : JEntry γ}
    (h : findEntry table key = some e) :
    e ∈ table ∧ e.name = normalizeStr key := by
  unfold findEntry at h
  rcases hb : (find_string_state (table.map fun e => e.name) key).has_match
  · rw [hb, if_neg (by simp)] at h
    exact absurd h (by simp)
  · rw [hb, if_pos rfl] at h
    have hzfn : ∀ nm ∈ table.map (fun e => e.name), ZeroFree nm := by
      intro nm hnm
      rcases List.mem_map.mp hnm with ⟨e', he', rfl⟩
      exact wf.2 e' he'
    have hfs : find_string (table.map fun e => e.name) key = true := hb
    have hlo := find_string_lo (table.map fun e => e.name) key wf.1 hzfn hk hfs
    have hmap := List.get?_map (fun e => e.name) table
      (find_string_state (table.map fun e => e.name) key).lo
    rw [hlo, h] at hmap
    refine ⟨List.get?_mem h, ?_⟩
    simpa using hmap.symm

set_option maxHeartbeats 1000000 in
theorem findEntry_none_of_count_ne {table : List (JEntry γ)} {key : List Nat}
    (wf : TableWF table) (hk : ZeroFree key)
    (h : (table.map fun e => e.name).count (normalizeStr key) ≠ 1) :
    findEntry table key = none := by
  have hzfn : ∀ nm ∈ table.map (fun e => e.name), ZeroFree nm := by
    intro nm hnm
    rcases List.mem_map.mp hnm with ⟨e', he', rfl⟩
    exact wf.2 e' he'
  unfold findEntry
  rcases hb : (find_string_state (table.map fun e => e.name) key).has_match
  · rw [hb, if_neg (by simp)]
  · exfalso
    have hfs : find_string (table.map fun e => e.name) key = true := hb
    exact h ((find_string_iff_count (table.map fun e => e.name) key
      wf.1 hzfn hk).mp hfs)

theorem ovHandle_get_ne {dec : Json → γ → γ × Status} {i p : Nat}
    (hne : i ≠ p) (d0 : γ) (t : List γ) (j : Json) :
    ((ovHandle dec i d0 t j).1).get? p = t.get? p := by
  unfold ovHandle
  rcases dec j (t.getD i d0) with ⟨m1, r1⟩
  dsimp only
  match r1 with
  | Status.failed =>
    dsimp only
    rw [List.get?_eq_getElem?, List.getElem?_set_ne hne,
      List.getElem?_set_ne hne, ← List.get?_eq_getElem?]
  | Status.ok =>
    dsimp only
    rw [List.get?_eq_getElem?, List.getElem?_set_ne hne,
      ← List.get?_eq_getElem?]
  | Status.thrown =>
    dsimp only
    rw [List.get?_eq_getElem?, List.getElem?_set_ne hne,
      ← List.get?_eq_getElem?]

theorem rmHandle_get_ne {e : JEntry γ} {p : Nat} (hne : e.ordinal ≠ p)
    (r : required_members_t) (d0 : γ) (t : List γ) (j : Json) :
    ((rmHandle r e d0 t j).2.1).get? p = t.get? p := by
  unfold rmHandle
  have hov := @ovHandle_get_ne γ e.dec e.ordinal p hne d0 t j
  rcases hh : ovHandle e.dec e.ordinal d0 t j with ⟨t', st⟩
  rw [hh] at hov
  dsimp only at hov
  match st with
  | Status.ok =>
    dsimp only
    split <;> exact hov
  | Status.failed => exact hov
  | Status.thrown => exact hov

/-- Frame property of the key walk: a member none of whose table entries
is named by any (normalized) input key is never written. -/
theorem loadLoop_frame {table : List (JEntry γ)} (wf : TableWF table)
    (d0 : γ) (kvs : List (List Nat × Json)) (r : required_members_t)
    (t : List γ) (p : Nat)
    (hkzf : ∀ kv ∈ kvs, ZeroFree kv.1)
    (hp : ∀ e ∈ table, e.ordinal = p →
      e.name ∉ kvs.map fun kv => normalizeStr kv.1) :
    ((loadLoop table d0 kvs r t).2.1).get? p = t.get? p := by
  induction kvs generalizing r t with
  | nil => rfl
  | cons kv rest ih =>
    rcases kv with ⟨k, v⟩
    have hk : ZeroFree k := hkzf (k, v) (List.mem_cons_self _ _)
    have hkzf' : ∀ kv ∈ rest, ZeroFree kv.1 :=
      fun kv hkv => hkzf kv (List.mem_cons_of_mem _ hkv)
    have hp' : ∀ e ∈ table, e.ordinal = p →
        e.name ∉ rest.map fun kv => normalizeStr kv.1 := by
      intro e he hord hmem
      exact hp e he hord (by simpa using List.mem_cons_of_mem _ hmem)
    rcases hfe : findEntry table k with _ | e
    · rw [loadLoop_cons_none hfe]
      exact ih r t hkzf' hp'
    · obtain ⟨hmem, hname⟩ := findEntry_some_name wf hk hfe
      have hord : e.ordinal ≠ p := by
        intro hcontra
        refine hp e hmem hcontra ?_
        rw [hname]
        exact List.mem_map.mpr ⟨(k, v), List.mem_cons_self _ _, rfl⟩
      have hh := rmHandle_get_ne hord r d0 t v
      rcases hr : rmHandle r e d0 t v with ⟨r', t', st⟩
      rw [hr] at hh
      dsimp only at hh
      rw [loadLoop_cons_some hfe, hr]
      match st with
      | Status.ok =>
        dsimp only
        rw [ih r' t' hkzf' hp']
        exact hh
      | Status.failed => exact hh
      | Status.thrown => exact hh

/-- Input keys that resolve to no dispatch entry are skipped: the walk
computes the same outcome on the input restricted to its resolvable
keys. -/
theorem loadLoop_skip_unmatched (table : List (JEntry γ)) (d0 : γ)
    (kvs : List (List Nat × Json)) (r : required_members_t) (t : List γ) :
    loadLoop table d0 kvs r t =
      loadLoop table d0
        (kvs.filter fun kv => (findEntry table kv.1).isSome) r t := by
  induction kvs generalizing r t with
  | nil => rfl
  | cons kv rest ih =>
    rcases kv with ⟨k, v⟩
    rcases hfe : findEntry table k with _ | e
    · rw [show ((k, v) :: rest).filter
          (fun kv => (findEntry table kv.1).isSome) =
          rest.filter (fun kv => (findEntry table kv.1).isSome) by
        simp [List.filter, hfe]]
      rw [loadLoop_cons_none hfe]
      exact ih r t
    · rw [show ((k, v) :: rest).filter
          (fun kv => (findEntry table kv.1).isSome) =
          (k, v) :: rest.filter (fun kv => (findEntry table kv.1).isSome) by
        simp [List.filter, hfe]]
      rcases hr : rmHandle r e d0 t v with ⟨r', t', st⟩
      rw [loadLoop_cons_some hfe, loadLoop_cons_some hfe, hr]
      match st with
      | Status.ok => exact ih r' t'
      | Status.failed => rfl
      | Status.thrown => rfl

/-! ## Required-member tracking -/

/-- An abstract `handle` call: the entry's required flag and ordinal, and
the outcome of its handler. -/
def mkEntry (c : Bool × Nat × Status) : JEntry Unit :=
  ⟨[], c.2.1, c.1, fun _ _ => ((), c.2.2)⟩

/-- A sequence of `required_members_t::handle` calls, threaded through
the tracker. -/
def rmRun (calls : List (Bool × Nat × Status)) (r : required_members_t) :
    required_members_t :=
  calls.foldl (fun acc c => (rmHandle acc (mkEntry c) () [] Json.null).1) r

theorem getD_replicate_false (n i : Nat) :
    (List.replicate n false).getD i false = false := by
  simp [List.getD, List.getElem?_replicate]
  split <;> rfl

theorem rmHandle_mkEntry (r : required_members_t) (c : Bool × Nat × Status) :
    (rmHandle r (mkEntry c) () [] Json.null).1 =
      match c.2.2 with
      | Status.ok =>
        if c.1 && !(r.seen_options.getD c.2.1 false) then
          ⟨r.seen_options.set c.2.1 true,
            r.unique_required_members_seen + 1⟩
        else r
      | _ => r := by
  rcases c with ⟨req, ord, st⟩
  match st with
  | Status.ok =>
    simp only [rmHandle, ovHandle, mkEntry]
    simp
    split <;> rfl
  | Status.failed => simp [rmHandle, ovHandle, mkEntry]
  | Status.thrown => simp [rmHandle, ovHandle, mkEntry]

/-- A failing handler leaves the tracker untouched (the general form, for
any entry and instance). -/
theorem rmHandle_tracker_unchanged {γ : Type} (r : required_members_t)
    (e : JEntry γ) (d0 : γ) (t : List γ) (j : Json)
    (h : (ovHandle e.dec e.ordinal d0 t j).2 ≠ Status.ok) :
    (rmHandle r e d0 t j).1 = r := by
  unfold rmHandle
  rcases hh : ovHandle e.dec e.ordinal d0 t j with ⟨t', st⟩
  rw [hh] at h
  dsimp only at h
  match st with
  | Status.ok => exact absurd rfl h
  | Status.failed => rfl
  | Status.thrown => rfl

/-- The ordinals of the required entries among a call sequence. -/
def reqOrds (calls : List (Bool × Nat × Status)) : List Nat :=
  (calls.filter fun c => c.1).map fun c => c.2.1

theorem reqOrds_cons (c : Bool × Nat × Status)
    (rest : List (Bool × Nat × Status)) :
    reqOrds (c :: rest) =
      if c.1 then c.2.1 :: reqOrds rest else reqOrds rest := by
  unfold reqOrds
  rcases c with ⟨req, ord, st⟩
  cases req <;> simp [List.filter]

theorem getD_set_self {l : List Bool} {i : Nat} (h : i < l.length)
    (a : Bool) : (l.set i a).getD i false = a := by
  simp [List.getD, List.getElem?_set_self h]

theorem getD_set_ne {l : List Bool} {i j : Nat} (h : i ≠ j) (a : Bool) :
    (l.set i a).getD j false = l.getD j false := by
  simp [List.getD, List.getElem?_set_ne h]

theorem rmRun_invariant (n : Nat) (calls : List (Bool × Nat × Status)) :
    ∀ (r : required_members_t) (S : Finset Nat),
      (∀ c ∈ calls, c.2.1 < n) → (∀ c ∈ calls, c.2.2 = Status.ok) →
      r.seen_options.length = n →
      r.unique_required_members_seen = S.card →
      (∀ i, r.seen_options.getD i false = true ↔ i ∈ S) →
      (rmRun calls r).unique_required_members_seen =
          (S ∪ (reqOrds calls).toFinset).card ∧
        (rmRun calls r).seen_options.length = n ∧
        (∀ i, (rmRun calls r).seen_options.getD i false = true ↔
          i ∈ S ∪ (reqOrds calls).toFinset) := by
  induction calls with
  | nil =>
    intro r S _ _ hlen hcard hbits
    refine ⟨by simp [rmRun, reqOrds, hcard], hlen, ?_⟩
    intro i
    have hb := hbits i
    simpa [rmRun, reqOrds] using hb
  | cons c rest ih =>
    intro r S hord hok hlen hcard hbits
    have hcord : c.2.1 < n := hord c (List.mem_cons_self _ _)
    have hcok : c.2.2 = Status.ok := hok c (List.mem_cons_self _ _)
    have hord' : ∀ x ∈ rest, x.2.1 < n :=
      fun x hx => hord x (List.mem_cons_of_mem _ hx)
    have hok' : ∀ x ∈ rest, x.2.2 = Status.ok :=
      fun x hx => hok x (List.mem_cons_of_mem _ hx)
    have hstep : rmRun (c :: rest) r =
        rmRun rest (rmHandle r (mkEntry c) () [] Json.null).1 := rfl
    rw [hstep, rmHandle_mkEntry, hcok]
    rcases hreq : c.1 with _ | _
    · dsimp only
      rw [Bool.false_and, if_neg (by simp), reqOrds_cons, hreq,
        if_neg (by simp)]
      exact ih r S hord' hok' hlen hcard hbits
    · dsimp only
      rw [Bool.true_and, reqOrds_cons, hreq, if_pos rfl, List.toFinset_cons,
        Finset.union_insert, ← Finset.insert_union]
      rcases hbit : r.seen_options.getD c.2.1 false with _ | _
      · rw [if_pos (by simp [hbit])]
        have hnotS : c.2.1 ∉ S := fun hmem => by
          rw [(hbits c.2.1).mpr hmem] at hbit
          exact absurd hbit (by simp)
        refine ih _ (insert c.2.1 S) hord' hok' ?_ ?_ ?_
        · dsimp only
          rw [List.length_set]
          exact hlen
        · dsimp only
          rw [Finset.card_insert_of_not_mem hnotS, hcard]
        · intro i
          dsimp only
          rcases Decidable.em (i = c.2.1) with rfl | hne
          · rw [getD_set_self (by omega)]
            simp
          · rw [getD_set_ne (fun h => hne h.symm)]
            rw [hbits i]
            simp [Finset.mem_insert, hne]
      · rw [if_neg (by simp [hbit])]
        have hmemS : c.2.1 ∈ S := (hbits c.2.1).mp hbit
        have hins : insert c.2.1 S = S := Finset.insert_eq_self.mpr hmemS
        rw [hins]
        exact ih r S hord' hok' hlen hcard hbits

/-! ## Codec round-trip and container lemmas -/

theorem wrapI64_eq {n : Int} (h : in64 n) : wrapI64 n = n := by
  unfold in64 at h
  unfold wrapI64
  omega

theorem cppQuot_1000_bounds {t : Int} (h : in64 t) :
    in64 (cppQuot t 1000) ∧ in64 (1000 * cppQuot t 1000) := by
  unfold in64 at h ⊢
  unfold cppQuot
  have ha : (t.tdiv 1000).natAbs = t.natAbs / 1000 := Int.natAbs_tdiv t 1000
  have hb : t.natAbs / 1000 * 1000 ≤ t.natAbs := Nat.div_mul_le_self _ _
  omega

theorem getD_append_len (pre : List α) (c : α) (cs : List α) (d : α) :
    (pre ++ c :: cs).getD pre.length d = c := by
  induction pre with
  | nil => rfl
  | cons x xs ih => simpa using ih

theorem set_append_len (pre : List α) (c : α) (cs : List α) (x : α) :
    (pre ++ c :: cs).set pre.length x = pre ++ x :: cs := by
  induction pre with
  | nil => rfl
  | cons y ys ih => simp [ih]

theorem resizeList_length (m : List α) (n : Nat) (d : α) :
    (resizeList m n d).length = n := by
  unfold resizeList
  simp
  omega

/-- The in-place element walk decodes position by position: on inputs
whose element decodes do not throw, the walked suffix is replaced by the
pointwise decodes of the input elements into the prior elements. -/
theorem load_vec_loop_zip (dec : Json → α → α × Status) (d : α) :
    ∀ (js : List Json) (pre cur : List α), cur.length = js.length →
      (∀ p ∈ List.zip js cur, (dec p.1 p.2).2 ≠ Status.thrown) →
      load_vec_loop dec d js (pre ++ cur) pre.length =
        (pre ++ List.zipWith (fun j c => (dec j c).1) js cur, Status.ok) := by
  intro js
  induction js with
  | nil =>
    intro pre cur hlen _
    have : cur = [] := List.length_eq_zero.mp hlen
    subst this
    simp [load_vec_loop]
  | cons j js' ih =>
    intro pre cur hlen hth
    match cur, hlen with
    | c :: cs, hlen =>
      have hth0 : (dec j c).2 ≠ Status.thrown :=
        hth (j, c) (by simp [List.zip_cons_cons])
      have hth' : ∀ p ∈ List.zip js' cs, (dec p.1 p.2).2 ≠ Status.thrown :=
        fun p hp => hth p (by simp [List.zip_cons_cons, hp])
      rw [load_vec_loop]
      rw [getD_append_len]
      rcases hd : dec j c with ⟨v, st⟩
      rw [hd] at hth0
      dsimp only at hth0 ⊢
      rw [set_append_len]
      have hre : pre ++ v :: cs = (pre ++ [v]) ++ cs := by
        simp
      have hlen' : cs.length = js'.length := by simpa using hlen
      have hpre : (pre ++ [v]).length = pre.length + 1 := by simp
      have hrec := ih (pre ++ [v]) cs hlen' hth'
      rw [hpre] at hrec
      match st with
      | Status.thrown => exact absurd rfl hth0
      | Status.ok =>
        dsimp only
        rw [hre, hrec]
        simp [hd]
      | Status.failed =>
        dsimp only
        rw [hre, hrec]
        simp [hd]

/-- `load_impl` on a vector member: resize to the input length, then
decode every element in place over the retained prior element. -/
theorem load_vector_arr (dec : Json → α → α × Status) (d : α)
    (js : List Json) (m : List α)
    (hth : ∀ p ∈ List.zip js (resizeList m js.length d),
      (dec p.1 p.2).2 ≠ Status.thrown) :
    load_vector dec d (Json.arr js) m =
      (List.zipWith (fun j c => (dec j c).1) js (resizeList m js.length d),
        Status.ok) := by
  unfold load_vector
  have := load_vec_loop_zip dec d js [] (resizeList m js.length d)
    (resizeList_length m js.length d) hth
  simpa using this

theorem zipWith_roundtrip (dec : Json → α → α × Status) (enc : α → Json)
    (hrt : ∀ v w, dec (enc v) w = (v, Status.ok)) :
    ∀ (xs : List α) (cur : List α), cur.length = xs.length →
      List.zipWith (fun j c => (dec j c).1) (xs.map enc) cur = xs := by
  intro xs
  induction xs with
  | nil => intro cur _; simp
  | cons x xs' ih =>
    intro cur hlen
    match cur with
    | c :: cs =>
      simp only [List.map_cons, List.zipWith_cons_cons, hrt x c]
      rw [ih cs (by simpa using hlen)]

theorem zip_map_roundtrip_no_thrown (dec : Json → α → α × Status)
    (enc : α → Json) (hrt : ∀ v w, dec (enc v) w = (v, Status.ok)) :
    ∀ (xs cur : List α) (p : Json × α), p ∈ List.zip (xs.map enc) cur →
      (dec p.1 p.2).2 ≠ Status.thrown := by
  intro xs
  induction xs with
  | nil => intro cur p hp; simp at hp
  | cons x xs' ih =>
    intro cur p hp
    match cur with
    | [] => simp at hp
    | c :: cs =>
      simp only [List.map_cons, List.zip_cons_cons, List.mem_cons] at hp
      rcases hp with rfl | hp
      · rw [hrt x c]
        simp
      · exact ih cs p hp

theorem load_set_loop_ok (dec : Json → Int → Int × Status) (d : Int) :
    ∀ (js : List Json) (acc : List Int),
      (∀ j ∈ js, (dec j d).2 ≠ Status.thrown) →
      load_set_loop dec d js acc =
        (js.foldl (fun a j => setInsert (dec j d).1 a) acc, Status.ok) := by
  intro js
  induction js with
  | nil => intro acc _; rfl
  | cons j rest ih =>
    intro acc hth
    have hth0 : (dec j d).2 ≠ Status.thrown := hth j (List.mem_cons_self _ _)
    have hth' : ∀ x ∈ rest, (dec x d).2 ≠ Status.thrown :=
      fun x hx => hth x (List.mem_cons_of_mem _ hx)
    rw [load_set_loop]
    rcases hd : dec j d with ⟨v, st⟩
    rw [hd] at hth0
    dsimp only at hth0 ⊢
    match st with
    | Status.thrown => exact absurd rfl hth0
    | Status.ok =>
      dsimp only
      rw [ih _ hth']
      simp [hd]
    | Status.failed =>
      dsimp only
      rw [ih _ hth']
      simp [hd]

theorem setInsert_append_last (ys : List Int) (x : Int)
    (h : ∀ y ∈ ys, y < x) : setInsert x ys = ys ++ [x] := by
  induction ys with
  | nil => rfl
  | cons y ys' ih =>
    have hy : y < x := h y (List.mem_cons_self _ _)
    rw [setInsert]
    rw [if_neg (by omega), if_neg (by omega)]
    rw [ih fun z hz => h z (List.mem_cons_of_mem _ hz)]
    rfl

theorem foldl_setInsert_sorted :
    ∀ (xs ys : List Int), (ys ++ xs).Pairwise (· < ·) →
      xs.foldl (fun a x => setInsert x a) ys = ys ++ xs := by
  intro xs
  induction xs with
  | nil => intro ys _; simp
  | cons x xs' ih =>
    intro ys hs
    have hlt : ∀ y ∈ ys, y < x := by
      intro y hy
      have := (List.pairwise_append.mp hs).2.2 y hy x (List.mem_cons_self _ _)
      exact this
    rw [List.foldl_cons, setInsert_append_last ys x hlt]
    have hs' : ((ys ++ [x]) ++ xs').Pairwise (· < ·) := by
      rw [List.append_assoc]
      exact hs.sublist (by simp)
    rw [ih (ys ++ [x]) hs']
    simp

theorem mapEmplace_append_last (ys : List (Int × α)) (k : Int) (v : α)
    (h : ∀ p ∈ ys, p.1 < k) : mapEmplace k v ys = ys ++ [(k, v)] := by
  induction ys with
  | nil => rfl
  | cons y ys' ih =>
    have hy : y.1 < k := h y (List.mem_cons_self _ _)
    rcases y with ⟨k', v'⟩
    rw [mapEmplace]
    rw [if_neg (by simp at hy ⊢; omega), if_neg (by simp at hy ⊢; omega)]
    rw [ih fun z hz => h z (List.mem_cons_of_mem _ hz)]
    rfl

theorem foldl_mapEmplace_sorted {α : Type} :
    ∀ (xs ys : List (Int × α)),
      ((ys ++ xs).map Prod.fst).Pairwise (· < ·) →
      xs.foldl (fun a p => mapEmplace p.1 p.2 a) ys = ys ++ xs := by
  intro xs
  induction xs with
  | nil => intro ys _; simp
  | cons x xs' ih =>
    intro ys hs
    have hlt : ∀ y ∈ ys, y.1 < x.1 := by
      intro y hy
      rw [List.map_append] at hs
      have := (List.pairwise_append.mp hs).2.2 y.1 (List.mem_map_of_mem _ hy)
        x.1 (by simp)
      exact this
    rw [List.foldl_cons, mapEmplace_append_last ys x.1 x.2 hlt]
    have hs' : (((ys ++ [x]) ++ xs').map Prod.fst).Pairwise (· < ·) := by
      rw [List.append_assoc]
      have hx : (x.1, x.2) = x := rfl
      simpa using hs
    have hxx : ((x.1, x.2) : Int × α) = x := rfl
    rw [hxx, ih (ys ++ [x]) hs']
    simp

/-- Either projection of a JSON array entry (`jj[0]`, `jj[1]`). -/
def jsonAt (j : Json) (i : Nat) : Json :=
  match j with
  | Json.arr js => js.getD i Json.null
  | _ => Json.null

theorem load_map_loop_ok {α : Type} (decK : Json → Int → Int × Status)
    (decV : Json → α → α × Status) (dK : Int) (dV : α) :
    ∀ (js : List Json) (acc : List (Int × α)),
      (∀ j ∈ js, (∃ k v, j = Json.arr [k, v]) ∧
        (decK (jsonAt j 0) dK).2 = Status.ok ∧
        (decV (jsonAt j 1) dV).2 = Status.ok) →
      load_map_loop decK decV dK dV js acc =
        (js.foldl (fun a j =>
          mapEmplace (decK (jsonAt j 0) dK).1 (decV (jsonAt j 1) dV).1 a)
          acc, Status.ok) := by
  intro js
  induction js with
  | nil => intro acc _; rfl
  | cons j rest ih =>
    intro acc hwf
    obtain ⟨⟨k, v, rfl⟩, hK, hV⟩ := hwf j (List.mem_cons_self _ _)
    have hwf' := fun x hx => hwf x (List.mem_cons_of_mem _ hx)
    rw [load_map_loop]
    simp only [jsonAt] at hK hV ⊢
    rw [if_pos (show ([k, v] : List Json).length = 2 by rfl)]
    rcases hk : decK (([k, v] : List Json).getD 0 Json.null) dK with ⟨kv, stK⟩
    rw [hk] at hK
    dsimp only at hK
    subst hK
    rcases hv : decV (([k, v] : List Json).getD 1 Json.null) dV with ⟨vv, stV⟩
    rw [hv] at hV
    dsimp only at hV
    subst hV
    dsimp only
    rw [ih _ hwf']
    have hk2 : decK k dK = (kv, Status.ok) := by simpa using hk
    have hv2 : decV v dV = (vv, Status.ok) := by simpa using hv
    simp [jsonAt, hk2, hv2]

theorem wrapI64_mod {q : Int} (h : in64 q) : wrapI64 (q % 2 ^ 64) = q := by
  unfold in64 at h
  unfold wrapI64
  omega

theorem loadOpt_roundtrip {α : Type} (dec : Json → α → α × Status)
    (enc : α → Json) (d : α)
    (hrt : ∀ v w, dec (enc v) w = (v, Status.ok))
    (hnn : ∀ v, enc v ≠ Json.null) (o : Option α) (m : Option α) :
    loadOpt dec d (saveOpt enc o) m = (o, Status.ok) := by
  match o with
  | none => rfl
  | some v =>
    show loadOpt dec d (enc v) m = (some v, Status.ok)
    rcases h : enc v with _ | b | n | s | js | kvs
    · exact absurd h (hnn v)
    all_goals
      rw [← h]
      unfold loadOpt
      rw [h, ← h, hrt v d]
      rw [h]

theorem loadPair_roundtrip {α β : Type} (decA : Json → α → α × Status)
    (encA : α → Json) (decB : Json → β → β × Status) (encB : β → Json)
    (hrtA : ∀ v w, decA (encA v) w = (v, Status.ok))
    (hrtB : ∀ v w, decB (encB v) w = (v, Status.ok))
    (x : α × β) (m : α × β) :
    load_pair decA decB (savePair encA encB x) m = (x, Status.ok) := by
  unfold savePair load_pair
  dsimp only
  rw [if_pos (by rfl)]
  simp [hrtA, hrtB]

theorem loadTuple3_roundtrip {α β γ : Type} (decA : Json → α → α × Status)
    (encA : α → Json) (decB : Json → β → β × Status) (encB : β → Json)
    (decC : Json → γ → γ × Status) (encC : γ → Json)
    (hrtA : ∀ v w, decA (encA v) w = (v, Status.ok))
    (hrtB : ∀ v w, decB (encB v) w = (v, Status.ok))
    (hrtC : ∀ v w, decC (encC v) w = (v, Status.ok))
    (x : α × β × γ) (m : α × β × γ) :
    loadTuple3 decA decB decC (saveTuple3 encA encB encC x) m =
      (x, Status.ok) := by
  unfold saveTuple3 loadTuple3
  dsimp only
  rw [if_pos (by rfl)]
  simp [hrtA, hrtB, hrtC]

theorem loadVector_roundtrip {α : Type} (dec : Json → α → α × Status)
    (enc : α → Json) (d : α) (hrt : ∀ v w, dec (enc v) w = (v, Status.ok))
    (xs : List α) (m : List α) :
    load_vector dec d (saveSeq enc xs) m = (xs, Status.ok) := by
  unfold saveSeq
  rw [load_vector_arr dec d (xs.map enc) m
    (fun p hp => zip_map_roundtrip_no_thrown dec enc hrt xs _ p hp)]
  rw [zipWith_roundtrip dec enc hrt xs _ (by simp [resizeList_length])]

theorem loadArray_roundtrip {α : Type} (dec : Json → α → α × Status)
    (enc : α → Json) (d : α) (hrt : ∀ v w, dec (enc v) w = (v, Status.ok))
    (xs : List α) (m : List α) (hlen : m.length = xs.length) :
    load_stdarray dec d (saveSeq enc xs) m = (xs, Status.ok) := by
  unfold saveSeq load_stdarray
  dsimp only
  rw [if_pos (by simp [hlen])]
  have := load_vec_loop_zip dec d (xs.map enc) [] m (by simp [hlen])
    (fun p hp => zip_map_roundtrip_no_thrown dec enc hrt xs m p hp)
  rw [show ([] : List α) ++ m = m from rfl] at this
  rw [show ([] : List α).length = 0 from rfl] at this
  rw [this, zipWith_roundtrip dec enc hrt xs m hlen]
  rfl

theorem loadSet_roundtrip (d : Int) (xs : List Int) (m : List Int)
    (hsort : xs.Pairwise (· < ·)) (hin : ∀ x ∈ xs, in64 x) :
    load_set loadI64 d (saveSeq saveI64 xs) m = (xs, Status.ok) := by
  unfold saveSeq load_set
  dsimp only
  rw [load_set_loop_ok loadI64 d (xs.map saveI64) []
    (by intro j hj; rcases List.mem_map.mp hj with ⟨x, _, rfl⟩; simp [loadI64, saveI64])]
  have hfold : ∀ (ys : List Int) (acc : List Int), (∀ x ∈ ys, in64 x) →
      (ys.map saveI64).foldl (fun a j => setInsert (loadI64 j d).1 a) acc =
        ys.foldl (fun a x => setInsert x a) acc := by
    intro ys
    induction ys with
    | nil => intro acc _; rfl
    | cons x rest ih =>
      intro acc hys
      have hx : in64 x := hys x (List.mem_cons_self _ _)
      simp only [List.map_cons, List.foldl_cons, loadI64, saveI64,
        wrapI64_eq hx]
      exact ih _ fun y hy => hys y (List.mem_cons_of_mem _ hy)
  rw [hfold xs [] hin, foldl_setInsert_sorted xs [] (by simpa using hsort)]
  simp

theorem loadMap_roundtrip (dK dV : Int) (kvs : List (Int × Int))
    (m : List (Int × Int))
    (hsort : (kvs.map Prod.fst).Pairwise (· < ·))
    (hin : ∀ p ∈ kvs, in64 p.1 ∧ in64 p.2) :
    load_map loadI64 loadI64 dK dV (saveMap saveI64 saveI64 kvs) m =
      (kvs, Status.ok) := by
  unfold saveMap load_map
  dsimp only
  rw [load_map_loop_ok loadI64 loadI64 dK dV
    (kvs.map fun kv => Json.arr [saveI64 kv.1, saveI64 kv.2]) [] ?hwf]
  case hwf =>
    intro j hj
    rcases List.mem_map.mp hj with ⟨kv, hkv, rfl⟩
    have := hin kv hkv
    exact ⟨⟨saveI64 kv.1, saveI64 kv.2, rfl⟩,
      by simp [jsonAt, loadI64, saveI64],
      by simp [jsonAt, loadI64, saveI64]⟩
  have hfold : ∀ (ys : List (Int × Int)) (acc : List (Int × Int)),
      (∀ p ∈ ys, in64 p.1 ∧ in64 p.2) →
      (ys.map fun kv => Json.arr [saveI64 kv.1, saveI64 kv.2]).foldl
        (fun a j =>
          mapEmplace (loadI64 (jsonAt j 0) dK).1 (loadI64 (jsonAt j 1) dV).1 a)
        acc =
      ys.foldl (fun a p => mapEmplace p.1 p.2 a) acc := by
    intro ys
    induction ys with
    | nil => intro acc _; rfl
    | cons kv rest ih =>
      intro acc hys
      have hkv := hys kv (List.mem_cons_self _ _)
      have e0 : jsonAt (Json.arr [saveI64 kv.1, saveI64 kv.2]) 0 =
          Json.num kv.1 := rfl
      have e1 : jsonAt (Json.arr [saveI64 kv.1, saveI64 kv.2]) 1 =
          Json.num kv.2 := rfl
      simp only [List.map_cons, List.foldl_cons, e0, e1, loadI64,
        wrapI64_eq hkv.1, wrapI64_eq hkv.2]
      exact ih _ fun p hp => hys p (List.mem_cons_of_mem _ hp)
  rw [hfold kvs [] hin,
    foldl_mapEmplace_sorted kvs [] (by simpa using hsort)]
  simp

theorem loadTime_roundtrip (t : Int) (m : Int) (h : in64 t) :
    loadTime (saveTime t) m = (1000 * cppQuot t 1000, Status.ok) := by
  obtain ⟨hq, hm⟩ := cppQuot_1000_bounds h
  unfold saveTime loadTime loadU64 saveI64
  dsimp only
  rw [wrapI64_mod hq, wrapI64_eq hm]

theorem loadDur_roundtrip (t : Int) (m : Int) (h : in64 t) :
    loadDur (saveDur t) m = (1000 * cppQuot t 1000, Status.ok) := by
  obtain ⟨hq, hm⟩ := cppQuot_1000_bounds h
  unfold saveDur loadDur saveI64
  dsimp only
  rw [wrapI64_eq hq, wrapI64_eq hm]

/-! ## A concrete reflected type

`MStruct { int64_t foo{}; int64_t bar{}; }` — its instance is the member
value list `[foo, bar]`, its dispatch table is sorted by name. -/

/-- The byte string "foo". -/
def fooB : List Nat := [102, 111, 111]

/-- The byte string "bar". -/
def barB : List Nat := [98, 97, 114]

/-- The dispatch table of `MStruct`, sorted by name: `bar` (ordinal 1),
`foo` (ordinal 0). -/
def mTable : List (JEntry Int) :=
  [⟨barB, 1, false, loadI64⟩, ⟨fooB, 0, false, loadI64⟩]

/-- `JsonSerializer::save` on an `MStruct` instance: one key per member
name, in enumeration order, each member encoded by its codec. -/
def saveMStruct (t : List Int) : Json :=
  Json.obj [(fooB, saveI64 (t.getD 0 0)), (barB, saveI64 (t.getD 1 0))]

/-- `JsonSerializer::load` on an `MStruct` instance: a fresh tracker and
`load_json_impl`. -/
def loadMStruct (j : Json) (m : List Int) : List Int × Status :=
  ((loadJson mTable 0 j (rmInit 2) m).2.1, (loadJson mTable 0 j (rmInit 2) m).2.2)

theorem loadMStruct_roundtrip (a b : Int) (ha : in64 a) (hb : in64 b) :
    loadMStruct (saveMStruct [a, b]) [0, 0] = ([a, b], Status.ok) := by
  have h1 : findEntry mTable fooB = some ⟨fooB, 0, false, loadI64⟩ := rfl
  have h2 : findEntry mTable barB = some ⟨barB, 1, false, loadI64⟩ := rfl
  have hr1 : rmHandle (rmInit 2) ⟨fooB, 0, false, loadI64⟩ 0 [0, 0]
      (Json.num a) = (rmInit 2, [a, 0], Status.ok) := by
    simp [rmHandle, ovHandle, loadI64, wrapI64_eq ha]
  have hr2 : rmHandle (rmInit 2) ⟨barB, 1, false, loadI64⟩ 0 [a, 0]
      (Json.num b) = (rmInit 2, [a, b], Status.ok) := by
    simp [rmHandle, ovHandle, loadI64, wrapI64_eq hb]
  unfold loadMStruct saveMStruct loadJson
  dsimp only
  rw [show ([a, b] : List Int).getD 0 0 = a from rfl,
    show ([a, b] : List Int).getD 1 0 = b from rfl]
  simp only [saveI64]
  rw [loadLoop_cons_some h1, hr1]
  dsimp only
  rw [loadLoop_cons_some h2, hr2]
  rfl

/-! ## The variant alternative walk -/

theorem variant_loop_past {α : Type} (j1 : Json) (index : Nat) :
    ∀ (alts : List ((Json → α → α × Status) × α)) (i : Nat)
      (m : Nat × α) (res : Status), index < i →
      variant_loop j1 index alts i m res = (m, res) := by
  intro alts
  induction alts with
  | nil => intro i m res _; rfl
  | cons a rest ih =>
    intro i m res hlt
    rcases a with ⟨dec, d⟩
    rw [variant_loop]
    rw [if_neg (by omega)]
    exact ih (i + 1) m res (by omega)

theorem variant_loop_spec {α : Type} (j1 : Json) (index : Nat) :
    ∀ (alts : List ((Json → α → α × Status) × α)) (i : Nat)
      (m : Nat × α) (res : Status), i ≤ index →
      variant_loop j1 index alts i m res =
        match alts.get? (index - i) with
        | none => (m, res)
        | some (dec, d) =>
          match (dec j1 d).2 with
          | Status.thrown => (m, Status.thrown)
          | s => ((index, (dec j1 d).1), s) := by
  intro alts
  induction alts with
  | nil => intro i m res _; rfl
  | cons a rest ih =>
    intro i m res hle
    rcases a with ⟨dec, d⟩
    rw [variant_loop]
    rcases Decidable.em (i = index) with rfl | hne
    · rw [if_pos rfl]
      rw [Nat.sub_self]
      rcases hd : dec j1 d with ⟨v, st⟩
      dsimp only
      match st with
      | Status.thrown => simp [hd]
      | Status.ok =>
        dsimp only
        rw [variant_loop_past j1 i rest (i + 1) (i, v) Status.ok (by omega)]
        simp [hd]
      | Status.failed =>
        dsimp only
        rw [variant_loop_past j1 i rest (i + 1) (i, v) Status.failed (by omega)]
        simp [hd]
    · rw [if_neg hne]
      have hlt : i < index := by omega
      rw [ih (i + 1) m res (by omega)]
      have : index - i = (index - (i + 1)) + 1 := by omega
      rw [this]
      rfl

/-! ## String-path integral parsing -/

theorem stringLoadUnsigned_false_iff (maxT : Nat) (x : Numeral)
    (member : Nat) :
    ((stringLoadUnsigned maxT x member).2 = false ↔ maxT < strtoullM x) ∧
    ((stringLoadUnsigned maxT x member).2 = true →
      (stringLoadUnsigned maxT x member).1 = strtoullM x) := by
  simp only [stringLoadUnsigned]
  constructor
  · split <;> simp_all
  · split <;> simp_all

theorem stringLoadUnsigned_reject_above (maxT : Nat) (x : Numeral)
    (member : Nat) (hmax : maxT < 2 ^ 64 - 1) (hneg : x.neg = false)
    (hv : maxT < x.v) :
    stringLoadUnsigned maxT x member = (member, false) := by
  simp only [stringLoadUnsigned, strtoullM, hneg, Bool.false_eq_true,
    if_false]
  split_ifs <;> first | rfl | omega

theorem stringLoadUnsigned_accept_in_range (maxT : Nat) (x : Numeral)
    (member : Nat) (hmax : maxT ≤ 2 ^ 64 - 1) (h0 : 0 ≤ denotes x)
    (hle : denotes x ≤ (maxT : Int)) :
    stringLoadUnsigned maxT x member = (x.v, true) := by
  rcases x with ⟨neg, v⟩
  cases neg
  · simp only [denotes] at h0 hle
    simp only [Bool.false_eq_true, if_false] at h0 hle
    simp only [stringLoadUnsigned, strtoullM, Bool.false_eq_true, if_false]
    split_ifs <;> first | rfl | omega
  · have hv0 : v = 0 := by
      simp only [denotes] at h0
      simp at h0
      omega
    subst hv0
    simp [stringLoadUnsigned, strtoullM, Nat.mod_self]

theorem stringLoadUnsigned_reject_small_negative (maxT : Nat) (x : Numeral)
    (member : Nat) (hneg : x.neg = true) (hv0 : 0 < x.v)
    (hv : x.v < 2 ^ 64 - maxT) :
    stringLoadUnsigned maxT x member = (member, false) := by
  simp only [stringLoadUnsigned, strtoullM, hneg, if_true]
  split_ifs <;> first | rfl | omega

theorem stringLoadSigned_narrow (minT maxT : Int) (x : Numeral)
    (member : Int) (hmin : -(2 ^ 63) < minT) (hmax : maxT < 2 ^ 63 - 1) :
    stringLoadSigned minT maxT x member =
      (if minT ≤ denotes x ∧ denotes x ≤ maxT then (denotes x, true)
       else (member, false)) := by
  rcases x with ⟨neg, v⟩
  cases neg <;>
    simp only [stringLoadSigned, strtollM, denotes, Bool.false_eq_true,
      if_false, if_true] <;>
    split_ifs <;> first | rfl | omega | simp_all

theorem stringLoadSigned_false_iff (minT maxT : Int) (x : Numeral)
    (member : Int) :
    ((stringLoadSigned minT maxT x member).2 = false ↔
      (maxT < strtollM x ∨ strtollM x < minT))
    ∧ ((stringLoadSigned minT maxT x member).2 = true →
      (stringLoadSigned minT maxT x member).1 = strtollM x) := by
  simp only [stringLoadSigned]
  refine ⟨?_, ?_⟩ <;> split_ifs <;> simp <;> omega

theorem stringLoadSigned_int64 (x : Numeral) (member : Int) :
    stringLoadSigned (-(2 ^ 63)) (2 ^ 63 - 1) x member =
      (strtollM x, true) := by
  have hb : -(2 ^ 63) ≤ strtollM x ∧ strtollM x ≤ 2 ^ 63 - 1 := by
    unfold strtollM
    split_ifs <;> omega
  simp only [stringLoadSigned]
  rw [if_neg (by omega), if_neg (by omega)]

/-! ## Concrete tables used by the claim theorems -/

/-- The byte string "a_b". -/
def abU : List Nat := [97, 95, 98]

/-- The byte string "a-b". -/
def abD : List Nat := [97, 45, 98]

/-- A one-member table: `int64_t a_b` at ordinal 0. -/
def c2Table : List (JEntry Int) := [⟨abU, 0, false, loadI64⟩]

/-- A one-member table: `int64_t foo` at ordinal 0. -/
def c8Table : List (JEntry Int) := [⟨fooB, 0, false, loadI64⟩]

theorem map_eq_self_of_no_dash {nm : List Nat} (h : (45 : Nat) ∉ nm) :
    normalizeStr nm = nm := by
  induction nm with
  | nil => rfl
  | cons c cs ih =>
    have hc : c ≠ 45 := fun hc => h (hc ▸ List.mem_cons_self c cs)
    simp only [normalizeStr, List.map_cons, normChar, if_neg hc]
    have := ih fun hx => h (List.mem_cons_of_mem c hx)
    simpa [normalizeStr] using this

/-! ## Claim theorems -/

/-- C3 (code_bug): decoding the array `[[1,2],[3],[4,5]]` into a
`std::vector<std::pair<int64_t,int64_t>>` hits a failing element decode
(`[3]` has the wrong arity), yet because the early return is guarded by
`!load_impl(...) && false` the walk goes on (the element `[4,5]` after
the failure is still processed) and the load reports success — the spec
requires the load to return false with no further elements processed. -/
theorem c3_element_failure_swallowed :
    load_vector (load_pair loadI64 loadI64) ((0 : Int), (0 : Int))
      (Json.arr [Json.arr [Json.num 1, Json.num 2], Json.arr [Json.num 3],
        Json.arr [Json.num 4, Json.num 5]]) [] =
      ([(1, 2), (0, 0), (4, 5)], Status.ok) := by decide

/-- C4 (confirmed): on a dispatch table (sorted by C-string order,
zero-free identifier names) and a zero-free input, `find_string` succeeds
iff the dash-normalized input is the name of exactly one entry;
consequently a (normalized) string absent from the table never matches, a
dash-free full name occurring once always matches, and two inputs with
the same normalization resolve identically. -/
theorem c4_dispatch_unique_resolution :
    ∀ (names : List (List Nat)) (s : List Nat),
      names.Pairwise (fun a b => strLe a b = true) →
      (∀ nm ∈ names, ZeroFree nm) → ZeroFree s →
      (find_string names s = true ↔ names.count (normalizeStr s) = 1)
      ∧ (normalizeStr s ∉ names → find_string names s = false)
      ∧ (∀ s2, ZeroFree s2 → normalizeStr s2 = normalizeStr s →
          find_string names s2 = find_string names s)
      ∧ (∀ nm ∈ names, (45 : Nat) ∉ nm → names.count nm = 1 →
          normalizeStr s = nm → find_string names s = true) := by
  intro names s hsort hzf hs
  have i1 := find_string_iff_count names s hsort hzf hs
  refine ⟨i1, ?_, ?_, ?_⟩
  · intro habs
    have : names.count (normalizeStr s) = 0 := List.count_eq_zero.mpr habs
    rcases hb : find_string names s
    · rfl
    · exact absurd (i1.mp hb) (by omega)
  · intro s2 hs2 heq
    have i2 := find_string_iff_count names s2 hsort hzf hs2
    rw [heq] at i2
    exact Bool.eq_iff_iff.mpr (i2.trans i1.symm)
  · intro nm _ hnd hcount hnorm
    exact i1.mpr (by rw [hnorm]; exact hcount)

/-- C4 witness: on the table `{bar, foo}` the full name "foo" resolves,
and the ambiguous/absent prefix "fo" does not. -/
theorem c4_witness :
    find_string [[98, 97, 114], [102, 111, 111]] [102, 111, 111] = true ∧
    find_string [[98, 97, 114], [102, 111, 111]] [102, 111] = false := by
  constructor
  · exact (c4_dispatch_unique_resolution [[98, 97, 114], [102, 111, 111]]
      [102, 111, 111] (by decide) (by decide) (by decide)).1.mpr (by decide)
  · exact (c4_dispatch_unique_resolution [[98, 97, 114], [102, 111, 111]]
      [102, 111] (by decide) (by decide) (by decide)).2.1 (by decide)

/-- C5 (confirmed): across a sequence of `handle` calls whose handlers
succeed, the unique-required-seen counter equals the number of distinct
required ordinals presented, `seen_all` holds iff that number equals the
statically computed required-member count, and a `handle` call whose
handler fails leaves the tracker unchanged. -/
theorem c5_required_tracking :
    (∀ (n : Nat) (calls : List (Bool × Nat × Status)) (mems : List Bool),
      (∀ c ∈ calls, c.2.1 < n) → (∀ c ∈ calls, c.2.2 = Status.ok) →
      (rmRun calls (rmInit n)).unique_required_members_seen =
          (reqOrds calls).toFinset.card
      ∧ (seen_all (rmRun calls (rmInit n)) mems = true ↔
          (reqOrds calls).toFinset.card = requiredCount mems))
  ∧ (∀ {γ : Type} (r : required_members_t) (e : JEntry γ) (d0 : γ)
      (t : List γ) (j : Json),
      (ovHandle e.dec e.ordinal d0 t j).2 ≠ Status.ok →
      (rmHandle r e d0 t j).1 = r) := by
  constructor
  · intro n calls mems hord hok
    have h := rmRun_invariant n calls (rmInit n) ∅ hord hok
      (by simp [rmInit]) (by simp [rmInit])
      (fun i => by simp [rmInit, getD_replicate_false])
    obtain ⟨hcard, _, _⟩ := h
    rw [Finset.empty_union] at hcard
    exact ⟨hcard, by simp [seen_all, hcard]⟩
  · intro γ r e d0 t j hne
    exact rmHandle_tracker_unchanged r e d0 t j hne

/-- C5 witness: one required member presented twice and one optional
member presented once yield a unique-required count of 1, and the tracker
then reports completeness for a type with exactly one required member. -/
theorem c5_witness :
    (rmRun [(true, 0, Status.ok), (true, 0, Status.ok),
      (false, 1, Status.ok)] (rmInit 2)).unique_required_members_seen = 1 ∧
    seen_all (rmRun [(true, 0, Status.ok), (true, 0, Status.ok),
      (false, 1, Status.ok)] (rmInit 2)) [true, false] = true := by
  have h := (c5_required_tracking.1 2
    [(true, 0, Status.ok), (true, 0, Status.ok), (false, 1, Status.ok)]
    [true, false] (by decide) (by decide))
  exact ⟨h.1.trans (by decide), h.2.mpr (by decide)⟩

/-- C7 (corrected): for every integral target the parser rejects exactly
when the clamped/wrapped 64-bit `strtoll`/`strtoull` conversion exceeds
the target's range, and on acceptance stores that converted value (equal
to the denoted value whenever that is representable): signed targets
strictly inside the int64 range reject precisely the out-of-range denoted
values; narrow unsigned targets reject everything above the maximum but
reject a negative only while its modulo-`2^64` image exceeds the maximum;
the 64-bit signed target always accepts the clamped conversion, and the
64-bit unsigned target accepts every clamped/wrapped conversion. -/
theorem c7_integral_parse_amended :
    (∀ (maxT : Nat) (x : Numeral) (member : Nat),
        ((stringLoadUnsigned maxT x member).2 = false ↔
          maxT < strtoullM x)
      ∧ ((stringLoadUnsigned maxT x member).2 = true →
          (stringLoadUnsigned maxT x member).1 = strtoullM x))
  ∧ (∀ (maxT : Nat) (x : Numeral) (member : Nat), maxT < 2 ^ 64 - 1 →
      x.neg = false → maxT < x.v →
      stringLoadUnsigned maxT x member = (member, false))
  ∧ (∀ (maxT : Nat) (x : Numeral) (member : Nat), maxT ≤ 2 ^ 64 - 1 →
      0 ≤ denotes x → denotes x ≤ (maxT : Int) →
      stringLoadUnsigned maxT x member = (x.v, true))
  ∧ (∀ (maxT : Nat) (x : Numeral) (member : Nat), x.neg = true →
      0 < x.v → x.v < 2 ^ 64 - maxT →
      stringLoadUnsigned maxT x member = (member, false))
  ∧ (∀ (minT maxT : Int) (x : Numeral) (member : Int),
      -(2 ^ 63) < minT → maxT < 2 ^ 63 - 1 →
      stringLoadSigned minT maxT x member =
        (if minT ≤ denotes x ∧ denotes x ≤ maxT then (denotes x, true)
         else (member, false)))
  ∧ (∀ (minT maxT : Int) (x : Numeral) (member : Int),
      ((stringLoadSigned minT maxT x member).2 = false ↔
        (maxT < strtollM x ∨ strtollM x < minT))
      ∧ ((stringLoadSigned minT maxT x member).2 = true →
        (stringLoadSigned minT maxT x member).1 = strtollM x))
  ∧ (∀ (x : Numeral) (member : Int),
      stringLoadSigned (-(2 ^ 63)) (2 ^ 63 - 1) x member =
        (strtollM x, true)) :=
  ⟨stringLoadUnsigned_false_iff, stringLoadUnsigned_reject_above,
    stringLoadUnsigned_accept_in_range,
    stringLoadUnsigned_reject_small_negative, stringLoadSigned_narrow,
    stringLoadSigned_false_iff, stringLoadSigned_int64⟩

/-- C7 counterexample: for a 64-bit unsigned target the negative numeral
"-1" is out of range, yet the parser accepts it and stores the wrapped
value `2^64 - 1`. -/
theorem c7_counterexample_uint64_negative :
    denotes ⟨true, 1⟩ < 0 ∧
    stringLoadUnsigned (2 ^ 64 - 1) ⟨true, 1⟩ 0 = (2 ^ 64 - 1, true) := by
  decide

/-- C7 witness: an `int8_t` target rejects "200" and accepts "-5", and
an `int64_t` target accepts the overflowing "18446744073709551616"
clamped to `2^63 - 1`. -/
theorem c7_witness :
    stringLoadSigned (-(2 ^ 7)) (2 ^ 7 - 1) ⟨false, 200⟩ 0 = (0, false) ∧
    stringLoadSigned (-(2 ^ 7)) (2 ^ 7 - 1) ⟨true, 5⟩ 0 = (-5, true) ∧
    stringLoadSigned (-(2 ^ 63)) (2 ^ 63 - 1) ⟨false, 2 ^ 64⟩ 0 =
      (2 ^ 63 - 1, true) := by
  refine ⟨?_, ?_, ?_⟩
  · exact (c7_integral_parse_amended.2.2.2.2.1 (-(2 ^ 7)) (2 ^ 7 - 1)
      ⟨false, 200⟩ 0 (by decide) (by decide)).trans (by decide)
  · exact (c7_integral_parse_amended.2.2.2.2.1 (-(2 ^ 7)) (2 ^ 7 - 1)
      ⟨true, 5⟩ 0 (by decide) (by decide)).trans (by decide)
  · exact (c7_integral_parse_amended.2.2.2.2.2.2 ⟨false, 2 ^ 64⟩
      0).trans (by decide)

/-- C8 (code_bug): decoding `{"foo": "abc"}` into an instance whose
`foo` member is arithmetic lets the nlohmann `type_error` escape through
`JsonSerializer::load` (the arithmetic `load_impl` is
`member = j.get<T>(); return true;` — it has no `false` path for a shape
mismatch), contradicting the boolean-error contract the claim states. -/
theorem c8_arithmetic_mismatch_throws :
    (loadJson c8Table 0 (Json.obj [(fooB, Json.str "abc")]) (rmInit 1)
      [0]).2.2 = Status.thrown ∧ Status.thrown ≠ Status.failed := by decide

/-- C10 (confirmed): `option_value_handler::handle` re-runs a failed
member decode once on the same, by then possibly mutated, member and
reports the second attempt's result; a non-`false` first attempt is
returned as is.  The closed conjunct shows the retry observing the first
attempt's partial mutation: the pair decode mutates `first` before
failing on `second`, and the reported member keeps that mutation. -/
theorem c10_retry_on_failure :
    (∀ {γ : Type} (dec : Json → γ → γ × Status) (i : Nat) (d0 : γ)
        (t : List γ) (j : Json),
        (dec j (t.getD i d0)).2 = Status.failed →
        ovHandle dec i d0 t j =
          ((t.set i (dec j (t.getD i d0)).1).set i
              (dec j ((t.set i (dec j (t.getD i d0)).1).getD i d0)).1,
            (dec j ((t.set i (dec j (t.getD i d0)).1).getD i d0)).2))
  ∧ (∀ {γ : Type} (dec : Json → γ → γ × Status) (i : Nat) (d0 : γ)
        (t : List γ) (j : Json),
        (dec j (t.getD i d0)).2 ≠ Status.failed →
        ovHandle dec i d0 t j =
          (t.set i (dec j (t.getD i d0)).1, (dec j (t.getD i d0)).2))
  ∧ (ovHandle (load_pair (load_vector loadI64 0) (load_stdarray loadI64 0))
        0 ([], []) [([], [0, 0])]
        (Json.arr [Json.arr [Json.num 1], Json.arr []]) =
      ([([1], [0, 0])], Status.failed)) := by
  refine ⟨?_, ?_, by decide⟩
  · intro γ dec i d0 t j hfail
    rcases hd : dec j (t.getD i d0) with ⟨m1, st⟩
    rw [hd] at hfail
    dsimp only at hfail
    subst hfail
    unfold ovHandle
    rw [hd]
  · intro γ dec i d0 t j hne
    rcases hd : dec j (t.getD i d0) with ⟨m1, st⟩
    rw [hd] at hne
    dsimp only at hne
    unfold ovHandle
    rw [hd]
    dsimp only
    match st, hne with
    | Status.ok, _ => rfl
    | Status.thrown, _ => rfl

/-- C10 witness: a decode that fails without mutating (`std::array` size
mismatch) is retried and the member is unchanged. -/
theorem c10_witness :
    ovHandle (load_stdarray loadI64 0) 0 [] [[0, 0]] (Json.arr []) =
      ([[0, 0]], Status.failed) := by
  have h := c10_retry_on_failure.1 (load_stdarray loadI64 0) 0 []
    [[0, 0]] (Json.arr []) (by decide)
  rw [h]
  decide

/-- A one-member table whose member is an `std::optional<std::optional<int64_t>>`. -/
def ooTable : List (JEntry (Option (Option Int))) :=
  [⟨fooB, 0, false, loadOpt (loadOpt loadI64 0) none⟩]

/-- `JsonSerializer::save` on the one-member nested-optional type. -/
def saveOOStruct (t : List (Option (Option Int))) : Json :=
  Json.obj [(fooB, saveOpt (saveOpt saveI64) (t.getD 0 none))]

/-- C1 counterexample: saving an instance whose
`optional<optional<int64_t>>` member holds an engaged-but-empty inner
optional writes `null`, and reloading yields the disengaged outer
optional: the load succeeds, but the loaded instance differs from the
saved one. -/
theorem c1_counterexample_nested_optional :
    (loadJson ooTable none (saveOOStruct [some none]) (rmInit 1)
      [none]).2 = ([none], Status.ok) ∧
    (some (none : Option Int)) ≠ none ∧
    ([none] : List (Option (Option Int))) ≠ [some none] := by decide

/-- C1 (corrected): save-then-load round trips for every supported field
category — arithmetic, enum, string-convertible, optional (when the
inner encoding cannot be `null`), fixed and variable sequences, sets,
maps, pairs, tuples, nested reflected types, time points and durations —
where time values come back truncated to whole microseconds
(`1000 * (t / 1000)` of the nanosecond count, truncation toward zero). -/
theorem c1_roundtrip_amended :
    (∀ (n m : Int), in64 n → loadI64 (saveI64 n) m = (n, Status.ok))
  ∧ (∀ (b m : Bool), loadBool (saveBool b) m = (b, Status.ok))
  ∧ (∀ (e m : Int), in64 e → loadEnum (saveEnum e) m = (e, Status.ok))
  ∧ (∀ (s m : String), loadStr (saveStr s) m = (s, Status.ok))
  ∧ (∀ {α : Type} (dec : Json → α → α × Status) (enc : α → Json) (d : α),
      (∀ v w, dec (enc v) w = (v, Status.ok)) →
      (∀ v, enc v ≠ Json.null) →
      ∀ (o m : Option α), loadOpt dec d (saveOpt enc o) m = (o, Status.ok))
  ∧ (∀ {α : Type} (dec : Json → α → α × Status) (enc : α → Json) (d : α),
      (∀ v w, dec (enc v) w = (v, Status.ok)) →
      ∀ (xs m : List α),
        load_vector dec d (saveSeq enc xs) m = (xs, Status.ok))
  ∧ (∀ {α : Type} (dec : Json → α → α × Status) (enc : α → Json) (d : α),
      (∀ v w, dec (enc v) w = (v, Status.ok)) →
      ∀ (xs m : List α), m.length = xs.length →
        load_stdarray dec d (saveSeq enc xs) m = (xs, Status.ok))
  ∧ (∀ (d : Int) (xs m : List Int), xs.Pairwise (· < ·) →
      (∀ x ∈ xs, in64 x) →
      load_set loadI64 d (saveSeq saveI64 xs) m = (xs, Status.ok))
  ∧ (∀ (dK dV : Int) (kvs m : List (Int × Int)),
      (kvs.map Prod.fst).Pairwise (· < ·) →
      (∀ p ∈ kvs, in64 p.1 ∧ in64 p.2) →
      load_map loadI64 loadI64 dK dV (saveMap saveI64 saveI64 kvs) m =
        (kvs, Status.ok))
  ∧ (∀ {α β : Type} (decA : Json → α → α × Status) (encA : α → Json)
      (decB : Json → β → β × Status) (encB : β → Json),
      (∀ v w, decA (encA v) w = (v, Status.ok)) →
      (∀ v w, decB (encB v) w = (v, Status.ok)) →
      ∀ (x m : α × β),
        load_pair decA decB (savePair encA encB x) m = (x, Status.ok))
  ∧ (∀ {α β γ : Type} (decA : Json → α → α × Status) (encA : α → Json)
      (decB : Json → β → β × Status) (encB : β → Json)
      (decC : Json → γ → γ × Status) (encC : γ → Json),
      (∀ v w, decA (encA v) w = (v, Status.ok)) →
      (∀ v w, decB (encB v) w = (v, Status.ok)) →
      (∀ v w, decC (encC v) w = (v, Status.ok)) →
      ∀ (x m : α × β × γ),
        loadTuple3 decA decB decC (saveTuple3 encA encB encC x) m =
          (x, Status.ok))
  ∧ (∀ (a b : Int), in64 a → in64 b →
      loadMStruct (saveMStruct [a, b]) [0, 0] = ([a, b], Status.ok))
  ∧ (∀ (t m : Int), in64 t →
      loadTime (saveTime t) m = (1000 * cppQuot t 1000, Status.ok))
  ∧ (∀ (t m : Int), in64 t →
      loadDur (saveDur t) m = (1000 * cppQuot t 1000, Status.ok)) := by
  refine ⟨?_, ?_, ?_, ?_, ?_, ?_, ?_, ?_, ?_, ?_, ?_, ?_, ?_, ?_⟩
  · intro n m h
    simp [loadI64, saveI64, wrapI64_eq h]
  · intro b m
    rfl
  · intro e m h
    simp [loadEnum, loadI64, saveEnum, saveI64, wrapI64_eq h]
  · intro s m
    rfl
  · intro α dec enc d hrt hnn o m
    exact loadOpt_roundtrip dec enc d hrt hnn o m
  · intro α dec enc d hrt xs m
    exact loadVector_roundtrip dec enc d hrt xs m
  · intro α dec enc d hrt xs m hlen
    exact loadArray_roundtrip dec enc d hrt xs m hlen
  · intro d xs m hsort hin
    exact loadSet_roundtrip d xs m hsort hin
  · intro dK dV kvs m hsort hin
    exact loadMap_roundtrip dK dV kvs m hsort hin
  · intro α β decA encA decB encB hrtA hrtB x m
    exact loadPair_roundtrip decA encA decB encB hrtA hrtB x m
  · intro α β γ decA encA decB encB decC encC hrtA hrtB hrtC x m
    exact loadTuple3_roundtrip decA encA decB encB decC encC hrtA hrtB hrtC
      x m
  · intro a b ha hb
    exact loadMStruct_roundtrip a b ha hb
  · intro t m h
    exact loadTime_roundtrip t m h
  · intro t m h
    exact loadDur_roundtrip t m h

/-- C1 witness: a nested-type round trip at `foo = 5, bar = 6`, and a
time-point round trip at 1234567 ns, which comes back truncated to
1234000 ns (whole microseconds). -/
theorem c1_witness :
    loadMStruct (saveMStruct [5, 6]) [0, 0] = ([5, 6], Status.ok) ∧
    loadTime (saveTime 1234567) 0 = (1234000, Status.ok) := by
  constructor
  · exact c1_roundtrip_amended.2.2.2.2.2.2.2.2.2.2.2.1 5 6 (by decide)
      (by decide)
  · exact (c1_roundtrip_amended.2.2.2.2.2.2.2.2.2.2.2.2.1 1234567 0
      (by decide)).trans (by decide)

/-- C2 counterexample: the member named "a_b" is updated by the input key
"a-b" (dash-to-underscore normalization), although "a_b" does not appear
among the input object's keys — the claim's frame condition, read on the
literal keys, fails. -/
theorem c2_counterexample_dash_key :
    (loadJson c2Table 0 (Json.obj [(abD, Json.num 5)]) (rmInit 1) [0]).2 =
      ([5], Status.ok) ∧ abU ∉ [abD] ∧ ([5] : List Int) ≠ [0] := by decide

/-- C2 (corrected): a member none of whose entries is named by any
dash-normalized input key keeps its prior value, and keys that resolve to
no dispatch entry are skipped — the load behaves as if they were absent
(in particular they never fail it). -/
theorem c2_frame_and_skip :
    ∀ {γ : Type} (table : List (JEntry γ)) (d0 : γ)
      (kvs : List (List Nat × Json)) (r : required_members_t) (t : List γ)
      (p : Nat), TableWF table → (∀ kv ∈ kvs, ZeroFree kv.1) →
      ((∀ e ∈ table, e.ordinal = p →
          e.name ∉ kvs.map fun kv => normalizeStr kv.1) →
        ((loadJson table d0 (Json.obj kvs) r t).2.1).get? p = t.get? p)
      ∧ loadJson table d0 (Json.obj kvs) r t =
          loadJson table d0
            (Json.obj (kvs.filter fun kv => (findEntry table kv.1).isSome))
            r t := by
  intro γ table d0 kvs r t p wf hkzf
  exact ⟨fun hp => loadLoop_frame wf d0 kvs r t p hkzf hp,
    loadLoop_skip_unmatched table d0 kvs r t⟩

/-- C2 witness: the unmatched key "c" is skipped and the member keeps its
default. -/
theorem c2_witness :
    ((loadJson c2Table 0 (Json.obj [([99], Json.num 7)]) (rmInit 1)
      [0]).2.1).get? 0 = some 0 := by
  have h := (c2_frame_and_skip c2Table 0 [([99], Json.num 7)] (rmInit 1)
    [0] 0 ⟨by decide, by decide⟩ (by decide)).1 (by decide)
  rw [h]
  rfl

/-- C9 counterexample: a successful vector load is not independent of the
container's prior contents — the prior element `{foo = 7, bar = 9}` is
decoded into in place by the partial object `{"foo": 1}`, so its `bar`
survives (`[[1, 9]]`), while from an empty prior the same input yields
`[[1, 0]]`: prior elements are merged into, not discarded. -/
theorem c9_counterexample_vector_merge :
    load_vector loadMStruct [0, 0] (Json.arr [Json.obj [(fooB, Json.num 1)]])
      [[7, 9]] = ([[1, 9]], Status.ok) ∧
    load_vector loadMStruct [0, 0] (Json.arr [Json.obj [(fooB, Json.num 1)]])
      [] = ([[1, 0]], Status.ok) ∧
    ([[1, 9]] : List (List Int)) ≠ [[1, 0]] := by decide

/-- C9 (corrected): sets and maps are cleared before insertion, so a
successful load leaves them holding exactly the decoded (inserted/
emplaced) elements, independent of prior contents; a vector is resized to
the input length and its elements are decoded in place over the retained
prior elements, so prior element state can persist inside decoded
elements (only elements beyond the input length are discarded). -/
theorem c9_replace_vs_merge :
    (∀ (dec : Json → Int → Int × Status) (d : Int) (js : List Json)
        (m m' : List Int),
        load_set dec d (Json.arr js) m = load_set dec d (Json.arr js) m')
  ∧ (∀ (dec : Json → Int → Int × Status) (d : Int) (js : List Json)
        (m : List Int), (∀ j ∈ js, (dec j d).2 = Status.ok) →
        load_set dec d (Json.arr js) m =
          (js.foldl (fun a j => setInsert (dec j d).1 a) [], Status.ok))
  ∧ (∀ {α : Type} (decK : Json → Int → Int × Status)
        (decV : Json → α → α × Status) (dK : Int) (dV : α) (js : List Json)
        (m m' : List (Int × α)),
        load_map decK decV dK dV (Json.arr js) m =
          load_map decK decV dK dV (Json.arr js) m')
  ∧ (∀ {α : Type} (decK : Json → Int → Int × Status)
        (decV : Json → α → α × Status) (dK : Int) (dV : α) (js : List Json)
        (m : List (Int × α)),
        (∀ j ∈ js, (∃ k v, j = Json.arr [k, v]) ∧
          (decK (jsonAt j 0) dK).2 = Status.ok ∧
          (decV (jsonAt j 1) dV).2 = Status.ok) →
        load_map decK decV dK dV (Json.arr js) m =
          (js.foldl (fun a j => mapEmplace (decK (jsonAt j 0) dK).1
            (decV (jsonAt j 1) dV).1 a) [], Status.ok))
  ∧ (∀ {α : Type} (dec : Json → α → α × Status) (d : α) (js : List Json)
        (m : List α),
        (∀ p ∈ List.zip js (resizeList m js.length d),
          (dec p.1 p.2).2 ≠ Status.thrown) →
        load_vector dec d (Json.arr js) m =
          (List.zipWith (fun j c => (dec j c).1) js
            (resizeList m js.length d), Status.ok)) := by
  refine ⟨?_, ?_, ?_, ?_, ?_⟩
  · intro dec d js m m'
    rfl
  · intro dec d js m hok
    unfold load_set
    dsimp only
    exact load_set_loop_ok dec d js []
      (fun j hj => by rw [hok j hj]; simp)
  · intro α decK decV dK dV js m m'
    rfl
  · intro α decK decV dK dV js m hwf
    unfold load_map
    dsimp only
    exact load_map_loop_ok decK decV dK dV js [] hwf
  · intro α dec d js m hth
    exact load_vector_arr dec d js m hth

/-- C9 witness: loading the empty array into a set with prior contents
leaves it empty — the prior elements are discarded. -/
theorem c9_witness :
    load_set loadI64 0 (Json.arr []) [3, 4, 5] = ([], Status.ok) := by
  have h := c9_replace_vs_merge.2.1 loadI64 0 [] [3, 4, 5] (by decide)
  rw [h]
  rfl

theorem load_variant_eq {α : Type}
    (alts : List ((Json → α → α × Status) × α)) (js : List Json)
    (m : Nat × α) (h2 : js.length = 2)
    (hu : is_number_unsigned (js.getD 0 Json.null) = true) :
    load_variant alts (Json.arr js) m =
      match alts.get? (jsonGetNat (js.getD 0 Json.null)) with
      | none => (m, Status.failed)
      | some (dec, d) =>
        match (dec (js.getD 1 Json.null) d).2 with
        | Status.thrown => (m, Status.thrown)
        | s => ((jsonGetNat (js.getD 0 Json.null),
            (dec (js.getD 1 Json.null) d).1), s) := by
  unfold load_variant
  dsimp only
  rw [if_pos (by rw [h2, hu]; rfl)]
  rw [variant_loop_spec (js.getD 1 Json.null)
    (jsonGetNat (js.getD 0 Json.null)) alts 0 m Status.failed
    (Nat.zero_le _)]
  rw [Nat.sub_zero]

theorem load_variant_reject {α : Type}
    (alts : List ((Json → α → α × Status) × α)) (js : List Json)
    (m : Nat × α)
    (h : ¬(js.length = 2 ∧
      is_number_unsigned (js.getD 0 Json.null) = true)) :
    load_variant alts (Json.arr js) m = (m, Status.failed) := by
  unfold load_variant
  dsimp only
  rw [if_neg (by simpa using h)]

/-- C6 (confirmed): saving a variant produces the 2-element array
`[active index, encoded alternative]`; decoding returns false exactly
when the input is not a 2-element array, or its first element is not an
unsigned (non-negative) integer, or that integer is no alternative
index, or the selected alternative's decode returns false; otherwise
(when nothing throws) the member becomes the decoded alternative tagged
with the index. -/
theorem c6_variant_wire_format :
    (∀ {α : Type} (encs : List (α → Json)) (member : Nat × α),
        member.1 < encs.length →
        ∃ enc, encs.get? member.1 = some enc ∧
          save_variant encs member =
            Json.arr [Json.num (member.1 : Int), enc member.2])
  ∧ (∀ {α : Type} (alts : List ((Json → α → α × Status) × α)) (j : Json)
        (m : Nat × α),
        ((load_variant alts j m).2 = Status.ok ↔
          ∃ js dec d, j = Json.arr js ∧ js.length = 2 ∧
            is_number_unsigned (js.getD 0 Json.null) = true ∧
            alts.get? (jsonGetNat (js.getD 0 Json.null)) = some (dec, d) ∧
            (dec (js.getD 1 Json.null) d).2 = Status.ok))
  ∧ (∀ {α : Type} (alts : List ((Json → α → α × Status) × α)) (j : Json)
        (m : Nat × α),
        ((load_variant alts j m).2 = Status.failed ↔
          (¬∃ js, j = Json.arr js ∧ js.length = 2) ∨
          (∃ js, j = Json.arr js ∧ js.length = 2 ∧
            is_number_unsigned (js.getD 0 Json.null) = false) ∨
          (∃ js, j = Json.arr js ∧ js.length = 2 ∧
            is_number_unsigned (js.getD 0 Json.null) = true ∧
            alts.get? (jsonGetNat (js.getD 0 Json.null)) = none) ∨
          (∃ js dec d, j = Json.arr js ∧ js.length = 2 ∧
            is_number_unsigned (js.getD 0 Json.null) = true ∧
            alts.get? (jsonGetNat (js.getD 0 Json.null)) = some (dec, d) ∧
            (dec (js.getD 1 Json.null) d).2 = Status.failed)))
  ∧ (∀ {α : Type} (alts : List ((Json → α → α × Status) × α))
        (js : List Json) (dec : Json → α → α × Status) (d : α)
        (m : Nat × α), js.length = 2 →
        is_number_unsigned (js.getD 0 Json.null) = true →
        alts.get? (jsonGetNat (js.getD 0 Json.null)) = some (dec, d) →
        (dec (js.getD 1 Json.null) d).2 ≠ Status.thrown →
        load_variant alts (Json.arr js) m =
          ((jsonGetNat (js.getD 0 Json.null),
            (dec (js.getD 1 Json.null) d).1),
            (dec (js.getD 1 Json.null) d).2)) := by
  refine ⟨?_, ?_, ?_, ?_⟩
  · intro α encs member hlt
    rcases hg : encs.get? member.1 with _ | enc
    · exfalso
      rw [List.get?_eq_none] at hg
      omega
    · refine ⟨enc, rfl, ?_⟩
      unfold save_variant
      rw [hg]
      rfl
  · intro α alts j m
    constructor
    · intro hok
      match j with
      | Json.null => exact absurd hok (by simp [load_variant])
      | Json.boolean b => exact absurd hok (by simp [load_variant])
      | Json.num n => exact absurd hok (by simp [load_variant])
      | Json.str s => exact absurd hok (by simp [load_variant])
      | Json.obj kvs => exact absurd hok (by simp [load_variant])
      | Json.arr js =>
        by_cases h2 : js.length = 2
        · by_cases hu : is_number_unsigned (js.getD 0 Json.null) = true
          · rw [load_variant_eq alts js m h2 hu] at hok
            rcases hg : alts.get? (jsonGetNat (js.getD 0 Json.null)) with
              _ | ⟨dec, d⟩
            · rw [hg] at hok
              simp at hok
            · rw [hg] at hok
              dsimp only at hok
              rcases hs : (dec (js.getD 1 Json.null) d).2 with _ | _ | _
              · exact ⟨js, dec, d, rfl, h2, hu, hg, hs⟩
              · rw [hs] at hok
                simp at hok
              · rw [hs] at hok
                simp at hok
          · rw [load_variant_reject alts js m (fun hc => hu hc.2)] at hok
            simp at hok
        · rw [load_variant_reject alts js m (fun hc => h2 hc.1)] at hok
          simp at hok
    · rintro ⟨js, dec, d, rfl, h2, hu, hg, hs⟩
      rw [load_variant_eq alts js m h2 hu, hg]
      dsimp only
      rw [hs]
  · intro α alts j m
    constructor
    · intro hfail
      match j with
      | Json.null => exact Or.inl (by rintro ⟨js, h, _⟩; cases h)
      | Json.boolean b => exact Or.inl (by rintro ⟨js, h, _⟩; cases h)
      | Json.num n => exact Or.inl (by rintro ⟨js, h, _⟩; cases h)
      | Json.str s => exact Or.inl (by rintro ⟨js, h, _⟩; cases h)
      | Json.obj kvs => exact Or.inl (by rintro ⟨js, h, _⟩; cases h)
      | Json.arr js =>
        by_cases h2 : js.length = 2
        · by_cases hu : is_number_unsigned (js.getD 0 Json.null) = true
          · rw [load_variant_eq alts js m h2 hu] at hfail
            rcases hg : alts.get? (jsonGetNat (js.getD 0 Json.null)) with
              _ | ⟨dec, d⟩
            · exact Or.inr (Or.inr (Or.inl ⟨js, rfl, h2, hu, hg⟩))
            · rw [hg] at hfail
              dsimp only at hfail
              rcases hs : (dec (js.getD 1 Json.null) d).2 with _ | _ | _
              · rw [hs] at hfail
                simp at hfail
              · exact Or.inr (Or.inr (Or.inr ⟨js, dec, d, rfl, h2, hu, hg,
                  hs⟩))
              · rw [hs] at hfail
                simp at hfail
          · refine Or.inr (Or.inl ⟨js, rfl, h2, ?_⟩)
            rcases hb : is_number_unsigned (js.getD 0 Json.null)
            · rfl
            · exact absurd hb hu
        · exact Or.inl (by rintro ⟨js', heq, h2'⟩; cases heq; exact h2 h2')
    · intro hcase
      rcases hcase with hno2 | ⟨js, rfl, h2, hu⟩ |
        ⟨js, rfl, h2, hu, hg⟩ | ⟨js, dec, d, rfl, h2, hu, hg, hs⟩
      · match j with
        | Json.null => rfl
        | Json.boolean b => rfl
        | Json.num n => rfl
        | Json.str s => rfl
        | Json.obj kvs => rfl
        | Json.arr js =>
          have h2 : ¬js.length = 2 := fun h => hno2 ⟨js, rfl, h⟩
          rw [load_variant_reject alts js m (fun hc => h2 hc.1)]
      · rw [load_variant_reject alts js m
          (by intro hc
              have hcc := hc.2
              rw [hu] at hcc
              exact Bool.noConfusion hcc)]
      · rw [load_variant_eq alts js m h2 hu, hg]
      · rw [load_variant_eq alts js m h2 hu, hg]
        dsimp only
        rw [hs]
  · intro α alts js dec d m h2 hu hg hth
    rw [load_variant_eq alts js m h2 hu, hg]
    dsimp only
    rcases hs : (dec (js.getD 1 Json.null) d).2 with _ | _ | _
    · rfl
    · rfl
    · exact absurd hs hth

/-- C6 witness: the array `[0, 7]` decodes into the variant's first
alternative with value 7. -/
theorem c6_witness :
    load_variant [(loadI64, (0 : Int))]
      (Json.arr [Json.num 0, Json.num 7]) (5, 99) =
      ((0, 7), Status.ok) := by
  have h := c6_variant_wire_format.2.2.2 [(loadI64, (0 : Int))]
    [Json.num 0, Json.num 7] loadI64 0 (5, 99) (by decide) (by decide)
    rfl (by decide)
  rw [h]
  decide
